import Mathlib

/-!
Verification of the static OpenAPI-generator repository (Django/Flask
route analyzers).  Each Python function under scrutiny is shallowly
embedded as an executable Lean definition translated from the source,
and the spec claims are settled as theorems about those definitions.

Sources embedded here:
* `src/specs/creators/python/django_creator.py` : `pluralize`,
  `convert_django_path_to_openapi`, `generate_operation_id`
* `src/djang.py` : `_django_to_openapi`, `URLVisitor`,
  `DecoratorVisitor`, `_walk`, `_build_spec`, `_file_from_module`
* `src/specs/creator/openapi_spec_creator.py` : `load_flask_app`
-/

/-! ### Pluralizer (django_creator.py, `pluralize`) -/

/-- The exact irregular-plural dictionary from `pluralize` (django_creator.py),
in source insertion order. -/
def irregulars : List (String × String) :=
  [("person", "people"), ("man", "men"), ("woman", "women"),
   ("child", "children"), ("foot", "feet"), ("tooth", "teeth"),
   ("goose", "geese"), ("mouse", "mice"), ("ox", "oxen"),
   ("leaf", "leaves"), ("life", "lives"), ("knife", "knives"),
   ("wife", "wives"), ("elf", "elves"), ("loaf", "loaves"),
   ("potato", "potatoes"), ("tomato", "tomatoes"), ("cactus", "cacti"),
   ("focus", "foci"), ("fungus", "fungi"), ("nucleus", "nuclei"),
   ("syllabus", "syllabi"), ("analysis", "analyses"),
   ("diagnosis", "diagnoses"), ("basis", "bases"), ("crisis", "crises"),
   ("thesis", "theses"), ("datum", "data"), ("medium", "media"),
   ("criterion", "criteria"), ("index", "indices"), ("matrix", "matrices"),
   ("vertex", "vertices"), ("alumnus", "alumni"), ("series", "series"),
   ("species", "species"), ("deer", "deer"), ("fish", "fish"),
   ("sheep", "sheep"), ("moose", "moose"), ("aircraft", "aircraft")]

/-- Python `str.lower`, as a kernel-reducible character map. -/
def pyLower (s : String) : String := ⟨s.data.map Char.toLower⟩

/-- Python `str.endswith`, as a kernel-reducible suffix test. -/
def endsWithS (s suf : String) : Bool := suf.data.isSuffixOf s.data

/-- Python `s[:-n]` (drop the last `n` characters). -/
def dropRightS (s : String) (n : Nat) : String :=
  ⟨s.data.take (s.data.length - n)⟩

/-- Python `c in 'aeiou'`. -/
def isVowelChar (c : Char) : Bool := c ∈ ['a', 'e', 'i', 'o', 'u']

/-- Python `word[-2]` (the source raises IndexError on strings shorter
than 2; those inputs never reach the branches using this). -/
def secondLastChar (w : String) : Char := w.data.getD (w.data.length - 2) ' '

/-- The `-o` exception list of `pluralize`. -/
def oExceptions : List String :=
  ["photo", "piano", "halo", "studio", "video", "radio", "solo"]

/-- Embedding of `pluralize` (django_creator.py lines 291-385): exact
irregular lookup first, then the fixed-priority suffix rules. -/
def pluralize (word0 : String) : String :=
  if word0 = "" then word0
  else
    let word := pyLower word0
    match irregulars.lookup word with
    | some p => p
    | none =>
      if endsWithS word "is" then dropRightS word 2 ++ "es"
      else if endsWithS word "on" then dropRightS word 2 ++ "a"
      else if endsWithS word "us" then dropRightS word 2 ++ "i"
      else if endsWithS word "f" then dropRightS word 1 ++ "ves"
      else if endsWithS word "fe" then dropRightS word 2 ++ "ves"
      else if endsWithS word "y" && !(isVowelChar (secondLastChar word)) then
        dropRightS word 1 ++ "ies"
      else if endsWithS word "o" && !(isVowelChar (secondLastChar word)) then
        if word ∈ oExceptions then word ++ "s" else word ++ "es"
      else if endsWithS word "ex" || endsWithS word "ix" then
        dropRightS word 2 ++ "ices"
      else if endsWithS word "s" || endsWithS word "ss" || endsWithS word "sh"
           || endsWithS word "ch" || endsWithS word "x" || endsWithS word "z" then
        word ++ "es"
      else word ++ "s"

/-- C3 counterexample: the claim asserts `pluralize "bus" = "buses"`, but
"bus" is not in the irregulars table so the `-us→-i` suffix rule fires
first and the code returns "bi". -/
theorem pluralize_bus_refutes_C3 : pluralize "bus" = "bi" ∧ pluralize "bus" ≠ "buses" := by
  decide

/-- C3 (amended): the pluralizer table matches the spec except for "bus":
`person→people`, `category→categories`, `bus→bi` (suffix rule `-us→-i`,
since "bus" is not an irregular), `city→cities`, `photo→photos`,
`index→indices`; and the exact irregular-word lookup is checked before
the suffix rules (every table entry is returned verbatim). -/
theorem pluralize_table_C3 :
    pluralize "person" = "people" ∧ pluralize "category" = "categories" ∧
    pluralize "bus" = "bi" ∧ pluralize "city" = "cities" ∧
    pluralize "photo" = "photos" ∧ pluralize "index" = "indices" ∧
    irregulars.all (fun p => pluralize p.1 == p.2) = true := by
  decide

/-! ### Regex-substitution scanning machinery

Python `re.sub`/`re.findall` scan left to right and replace
non-overlapping matches.  Every pattern used by the repository is
deterministic once reduced to "match at the current position or advance
one character", so each pattern becomes a `step` function returning the
replacement (or captured group) and the remainder after the match.
Every match consumes at least one character, so fuel equal to the input
length always suffices. -/

/-- Left-to-right scan of Python `re.sub`: at each position try `step`;
on a match emit the replacement and continue after the matched text,
otherwise emit the character and advance. -/
def subFuel (step : List Char → Option (List Char × List Char)) :
    Nat → List Char → List Char
  | 0, l => l
  | _ + 1, [] => []
  | n + 1, c :: rest =>
    match step (c :: rest) with
    | some (out, rest2) => out ++ subFuel step n rest2
    | none => c :: subFuel step n rest

/-- Left-to-right scan of Python `re.findall` for a single-group
pattern: collect each match's captured group. -/
def findAllFuel (step : List Char → Option (List Char × List Char)) :
    Nat → List Char → List (List Char)
  | 0, _ => []
  | _ + 1, [] => []
  | n + 1, c :: rest =>
    match step (c :: rest) with
    | some (nm, rest2) => nm :: findAllFuel step n rest2
    | none => findAllFuel step n rest

/-- Match `([^>]+)>` at the head: the (nonempty) run up to the first
`>` is the capture, the remainder follows the `>`. -/
def matchAngleName (l : List Char) : Option (List Char × List Char) :=
  let nm := l.takeWhile (· ≠ '>')
  match l.dropWhile (· ≠ '>') with
  | '>' :: rest => if nm.isEmpty then none else some (nm, rest)
  | _ => none

/-- The converter alternatives of `_slug = re.compile(r"<(?:int|str|slug|uuid|path):([^>]+)>")`
(djang.py line 68), each with the following colon. -/
def slugConverters : List String := ["int:", "str:", "slug:", "uuid:", "path:"]

/-- One match attempt of the `_slug` pattern, replacement `{\1}`. -/
def stepSlug (l : List Char) : Option (List Char × List Char) :=
  match l with
  | '<' :: rest =>
    match slugConverters.find? (fun conv => conv.data.isPrefixOf rest) with
    | some conv =>
      match matchAngleName (rest.drop conv.data.length) with
      | some (nm, rest2) => some ('{' :: nm ++ ['}'], rest2)
      | none => none
    | none => none
  | _ => none

/-- One match attempt of `_angle = re.compile(r"<([^>]+)>")` (djang.py
line 69), replacement `{\1}`. -/
def stepAngle (l : List Char) : Option (List Char × List Char) :=
  match l with
  | '<' :: rest =>
    match matchAngleName rest with
    | some (nm, rest2) => some ('{' :: nm ++ ['}'], rest2)
    | none => none
  | _ => none

/-- One match attempt of `r"{([^}]+)}"` used by `re.findall` in
`_django_to_openapi` to collect parameter names. -/
def stepParam (l : List Char) : Option (List Char × List Char) :=
  match l with
  | '{' :: rest =>
    let nm := rest.takeWhile (· ≠ '}')
    match rest.dropWhile (· ≠ '}') with
    | '}' :: rest2 => if nm.isEmpty then none else some (nm, rest2)
    | _ => none
  | _ => none

/-- A path parameter record as built by `_django_to_openapi`
(djang.py lines 76-84): `in` is always "path", `required` always true,
`schema.type` always "string". -/
structure PathParam where
  name : String
  location : String
  required : Bool
  schemaType : String
deriving DecidableEq, Repr

def mkPathParam (nm : String) : PathParam := ⟨nm, "path", true, "string"⟩

/-- Embedding of `_django_to_openapi` (djang.py lines 72-85): apply the
`_slug` substitution, then the `_angle` substitution, collect `{name}`
parameters, and return `"/" + openapi.lstrip("/")`. -/
def _django_to_openapi (path : String) : String × List PathParam :=
  let cs := path.data
  let o1 := subFuel stepSlug cs.length cs
  let o2 := subFuel stepAngle o1.length o1
  let names := findAllFuel stepParam o2.length o2
  (⟨'/' :: o2.dropWhile (· = '/')⟩, names.map fun nm => mkPathParam ⟨nm⟩)

/-- One match attempt of `r'<(?:[^:]+:)?([^>]+)>'` (django_creator.py
line 1166).  The optional greedy converter `[^:]+:` commits to the text
up to and including the first colon when at least one character
precedes it; if the rest of the pattern fails from there, the regex
falls back to matching without the converter. -/
def stepDjangoGeneric (l : List Char) : Option (List Char × List Char) :=
  match l with
  | '<' :: rest =>
    let pre := rest.takeWhile (· ≠ ':')
    let withConv : Option (List Char × List Char) :=
      match rest.dropWhile (· ≠ ':') with
      | ':' :: afterColon =>
        if pre.isEmpty then none
        else
          (matchAngleName afterColon).map fun p => ('{' :: p.1 ++ ['}'], p.2)
      | _ => none
    match withConv with
    | some r => some r
    | none => (matchAngleName rest).map fun p => ('{' :: p.1 ++ ['}'], p.2)
  | _ => none

/-- One match attempt of `r'\(\?P<([^>]+)>[^)]+\)'` (django_creator.py
line 1169), replacement `{\1}`. -/
def stepRegexGroup (l : List Char) : Option (List Char × List Char) :=
  match l with
  | '(' :: '?' :: 'P' :: '<' :: rest =>
    match matchAngleName rest with
    | some (nm, r2) =>
      let body := r2.takeWhile (· ≠ ')')
      match r2.dropWhile (· ≠ ')') with
      | ')' :: r3 => if body.isEmpty then none else some ('{' :: nm ++ ['}'], r3)
      | _ => none
    | none => none
  | _ => none

/-- Embedding of `convert_django_path_to_openapi` (django_creator.py
lines 1155-1179): normalize the leading slash, run both substitutions,
strip one trailing slash (except on the bare root), and special-case
the root to "/proxy/django". -/
def convertCore (p1 : List Char) : List Char :=
  let o1 := subFuel stepDjangoGeneric p1.length p1
  let o2 := subFuel stepRegexGroup o1.length o1
  if o2.getLast? = some '/' ∧ o2.length > 1 then o2.dropLast else o2

def convert_django_path_to_openapi (path : String) : String :=
  if path = "" then "/"
  else
    let p1 : List Char :=
      if path.data.head? = some '/' then path.data else '/' :: path.data
    let o3 := convertCore p1
    if o3 = ['/'] then "/proxy/django" else ⟨o3⟩

/-! ### C4: leading slash and placeholder resolution -/

/-- A character that is not angle-bracket syntax. -/
def plainChar (c : Char) : Bool := c ≠ '<' && c ≠ '>'

/-- Well-formed framework-native paths: any mix of plain characters and
angle-bracket placeholder groups `<name>` with nonempty, bracket-free
names (converter syntax such as `<int:id>` is a group whose name
contains a colon). -/
inductive WFPath : List Char → Prop where
  | nil : WFPath []
  | plain (c : Char) (rest : List Char) :
      plainChar c = true → WFPath rest → WFPath (c :: rest)
  | group (nm : List Char) (rest : List Char) :
      nm ≠ [] → (∀ c ∈ nm, plainChar c = true) → WFPath rest →
      WFPath ('<' :: nm ++ '>' :: rest)

/-- No angle-bracket syntax left in a translated path. -/
def noAngle (l : List Char) : Prop := ∀ c ∈ l, plainChar c = true

theorem takeWhile_append_all {p : Char → Bool} {l1 : List Char}
    (l2 : List Char) (h : ∀ c ∈ l1, p c = true) :
    (l1 ++ l2).takeWhile p = l1 ++ l2.takeWhile p := by
  induction l1 with
  | nil => simp
  | cons c t ih =>
      simp only [List.cons_append, List.takeWhile_cons]
      rw [h c (by simp), ih (fun x hx => h x (by simp [hx]))]
      simp

theorem dropWhile_append_all {p : Char → Bool} {l1 : List Char}
    (l2 : List Char) (h : ∀ c ∈ l1, p c = true) :
    (l1 ++ l2).dropWhile p = l2.dropWhile p := by
  induction l1 with
  | nil => simp
  | cons c t ih =>
      simp only [List.cons_append, List.dropWhile_cons]
      rw [h c (by simp), if_pos rfl]
      exact ih (fun x hx => h x (by simp [hx]))

theorem matchAngleName_group {nm : List Char} (rest : List Char)
    (hnm : nm ≠ []) (h : ∀ c ∈ nm, c ≠ '>') :
    matchAngleName (nm ++ '>' :: rest) = some (nm, rest) := by
  have ht : (nm ++ '>' :: rest).takeWhile (· ≠ '>') = nm := by
    rw [takeWhile_append_all ('>' :: rest) (fun c hc => by simp [h c hc])]
    simp [List.takeWhile_cons]
  have hd : (nm ++ '>' :: rest).dropWhile (· ≠ '>') = '>' :: rest := by
    rw [dropWhile_append_all ('>' :: rest) (fun c hc => by simp [h c hc])]
    simp [List.dropWhile_cons]
  simp only [matchAngleName, ht, hd]
  simp [List.isEmpty_iff, hnm]

theorem head?_dropWhile_false {p : Char → Bool} :
    ∀ {l : List Char} {a : Char}, (l.dropWhile p).head? = some a → p a = false := by
  intro l
  induction l with
  | nil => intro a h; simp [List.dropWhile] at h
  | cons c t ih =>
      intro a h
      by_cases hc : p c
      · rw [List.dropWhile_cons, if_pos hc] at h; exact ih h
      · rw [List.dropWhile_cons, if_neg hc] at h
        simp only [List.head?_cons, Option.some.injEq] at h
        subst h; exact Bool.eq_false_iff.mpr hc

theorem subFuel_cons_none {step : List Char → Option (List Char × List Char)}
    {c : Char} {rest : List Char} (n : Nat) (h : step (c :: rest) = none) :
    subFuel step (n + 1) (c :: rest) = c :: subFuel step n rest := by
  simp [subFuel, h]

theorem subFuel_cons_some {step : List Char → Option (List Char × List Char)}
    {c : Char} {rest out rest2 : List Char} (n : Nat)
    (h : step (c :: rest) = some (out, rest2)) :
    subFuel step (n + 1) (c :: rest) = out ++ subFuel step n rest2 := by
  simp [subFuel, h]

theorem stepSlug_head {l : List Char} {r : List Char × List Char}
    (h : stepSlug l = some r) : l.head? = some '<' := by
  unfold stepSlug at h
  split at h
  · simp
  · simp at h

theorem stepAngle_head {l : List Char} {r : List Char × List Char}
    (h : stepAngle l = some r) : l.head? = some '<' := by
  unfold stepAngle at h
  split at h
  · simp
  · simp at h

theorem stepDjangoGeneric_head {l : List Char} {r : List Char × List Char}
    (h : stepDjangoGeneric l = some r) : l.head? = some '<' := by
  unfold stepDjangoGeneric at h
  split at h
  · simp
  · simp at h

theorem stepRegexGroup_head {l : List Char} {r : List Char × List Char}
    (h : stepRegexGroup l = some r) : l.head? = some '(' := by
  unfold stepRegexGroup at h
  split at h
  · simp
  · simp at h

/-- A span of characters that can never start a match passes through a
substitution scan unchanged, consuming its own length in fuel. -/
theorem subFuel_append_skip (step : List Char → Option (List Char × List Char))
    (hc : Char) (hstep : ∀ l r, step l = some r → l.head? = some hc) :
    ∀ (s t : List Char) (fuel : Nat), (∀ c ∈ s, c ≠ hc) →
      subFuel step (s.length + fuel) (s ++ t) = s ++ subFuel step fuel t := by
  intro s
  induction s with
  | nil => intro t fuel _; simp
  | cons c s ih =>
      intro t fuel hs
      have hnone : step (c :: (s ++ t)) = none := by
        cases h : step (c :: (s ++ t)) with
        | none => rfl
        | some r =>
            have := hstep _ _ h
            simp only [List.head?_cons, Option.some.injEq] at this
            exact absurd this (hs c (by simp))
      have hlen : (c :: s).length + fuel = (s.length + fuel) + 1 := by
        simp [List.length_cons]; omega
      rw [hlen, List.cons_append, subFuel_cons_none _ hnone,
        ih t fuel (fun x hx => hs x (by simp [hx]))]
      simp

theorem plainChar_ne_lt {c : Char} (h : plainChar c = true) : c ≠ '<' := by
  simp [plainChar] at h; exact h.1

theorem plainChar_ne_gt {c : Char} (h : plainChar c = true) : c ≠ '>' := by
  simp [plainChar] at h; exact h.2

theorem conv_no_gt {conv : String} (h : conv ∈ slugConverters) :
    ∀ c ∈ conv.data, c ≠ '>' := by
  simp only [slugConverters, List.mem_cons, List.not_mem_nil, or_false] at h
  rcases h with rfl | rfl | rfl | rfl | rfl <;> decide

/-- A prefix of `nm ++ x :: rest` that does not contain `x` is a prefix
of `nm`. -/
theorem prefix_of_append_no_mem {conv nm rest : List Char} {x : Char}
    (hpre : conv <+: nm ++ x :: rest) (hx : x ∉ conv) : conv <+: nm := by
  have heq : conv = (nm ++ x :: rest).take conv.length :=
    List.prefix_iff_eq_take.mp hpre
  rw [List.take_append_eq_append_take] at heq
  by_cases hlen : conv.length ≤ nm.length
  · have h0 : conv.length - nm.length = 0 := by omega
    rw [h0] at heq
    simp only [List.take_zero, List.append_nil] at heq
    rw [heq]; exact List.take_prefix _ _
  · exfalso
    apply hx
    have h1 : conv.length - nm.length = (conv.length - nm.length - 1) + 1 := by
      omega
    rw [h1, List.take_succ_cons] at heq
    rw [heq]
    simp

/-- On a well-formed group the `_slug` pattern either fails (no
converter alternative is a prefix of the name, or nothing follows the
colon) or matches exactly the group, capturing the name's tail after
the converter. -/
theorem stepSlug_group {nm : List Char} (rest : List Char) (_hnm : nm ≠ [])
    (hp : ∀ c ∈ nm, plainChar c = true) :
    stepSlug ('<' :: (nm ++ '>' :: rest)) = none ∨
    ∃ nm2 : List Char, (∀ c ∈ nm2, plainChar c = true) ∧
      stepSlug ('<' :: (nm ++ '>' :: rest)) = some ('{' :: nm2 ++ ['}'], rest) := by
  cases hfind : slugConverters.find? (fun conv => conv.data.isPrefixOf (nm ++ '>' :: rest)) with
  | none =>
      left
      simp only [stepSlug, hfind]
  | some conv =>
      have hmem := List.mem_of_find?_eq_some hfind
      have hpref : conv.data <+: nm ++ '>' :: rest := by
        have := List.find?_some hfind
        simpa [List.isPrefixOf_iff_prefix] using this
      have hxnot : '>' ∉ conv.data := fun hmm => conv_no_gt hmem _ hmm rfl
      have hcp : conv.data <+: nm := prefix_of_append_no_mem hpref hxnot
      obtain ⟨nm2, hnm2eq⟩ := hcp
      have hdrop : (nm ++ '>' :: rest).drop conv.data.length = nm2 ++ '>' :: rest := by
        rw [← hnm2eq, List.append_assoc, List.drop_left]
      cases hnil : nm2 with
      | nil =>
          left
          have : matchAngleName ((nm ++ '>' :: rest).drop conv.data.length) = none := by
            rw [hdrop, hnil]
            simp [matchAngleName, List.takeWhile, List.dropWhile]
          simp only [stepSlug, hfind, this]
      | cons a t =>
          right
          refine ⟨nm2, ?_, ?_⟩
          · intro c hcm
            exact hp c (by rw [← hnm2eq]; simp [hcm])
          · have hmatch : matchAngleName ((nm ++ '>' :: rest).drop conv.data.length)
                = some (nm2, rest) := by
              rw [hdrop]
              exact matchAngleName_group rest (by rw [hnil]; simp)
                (fun c hcm => plainChar_ne_gt (hp c (by rw [← hnm2eq]; simp [hcm])))
            rw [hnil] at hmatch ⊢
            simp only [stepSlug, hfind, hmatch]

theorem wf_append_plain {s t : List Char} (hs : ∀ c ∈ s, plainChar c = true)
    (ht : WFPath t) : WFPath (s ++ t) := by
  induction s with
  | nil => simpa
  | cons c s ih =>
      simp only [List.cons_append]
      exact WFPath.plain c _ (hs c (by simp))
        (ih fun x hx => hs x (by simp [hx]))

theorem stepSlug_gt_none (rest : List Char) : stepSlug ('>' :: rest) = none := rfl

/-- The `_slug` substitution maps well-formed paths to well-formed
paths: converter placeholders become brace tokens, everything else is
kept verbatim. -/
theorem wf_subFuel_slug {l : List Char} (h : WFPath l) :
    ∀ fuel, l.length ≤ fuel → WFPath (subFuel stepSlug fuel l) := by
  induction h with
  | nil =>
      intro fuel _
      cases fuel <;> exact WFPath.nil
  | plain c rest hc _ ih =>
      intro fuel hlen
      simp only [List.length_cons] at hlen
      obtain ⟨n, rfl⟩ : ∃ n, fuel = n + 1 := ⟨fuel - 1, by omega⟩
      have hnone : stepSlug (c :: rest) = none := by
        cases h2 : stepSlug (c :: rest) with
        | none => rfl
        | some r =>
            exact absurd (by simpa using stepSlug_head h2) (plainChar_ne_lt hc)
      rw [subFuel_cons_none _ hnone]
      exact WFPath.plain c _ hc (ih n (by omega))
  | group nm rest hnm hp _ ih =>
      intro fuel hlen
      have hlen2 : nm.length + 2 + rest.length ≤ fuel := by
        simp only [List.length_cons, List.length_append] at hlen
        omega
      obtain ⟨n, rfl⟩ : ∃ n, fuel = n + 1 := ⟨fuel - 1, by omega⟩
      simp only [List.cons_append]
      rcases stepSlug_group rest hnm hp with hnone | ⟨nm2, hnm2, hsome⟩
      · rw [subFuel_cons_none _ hnone]
        have hskip : subFuel stepSlug n (nm ++ '>' :: rest)
            = nm ++ '>' :: subFuel stepSlug (n - nm.length - 1) rest := by
          have e1 := subFuel_append_skip stepSlug '<' (fun l r hr => stepSlug_head hr)
            nm ('>' :: rest) (n - nm.length) (fun c hc => plainChar_ne_lt (hp c hc))
          have e2 : nm.length + (n - nm.length) = n := by omega
          rw [e2] at e1
          rw [e1]
          have e3 : n - nm.length = (n - nm.length - 1) + 1 := by omega
          conv_lhs => rw [e3]
          rw [subFuel_cons_none _ (stepSlug_gt_none rest)]
        rw [hskip]
        have hg := WFPath.group nm (subFuel stepSlug (n - nm.length - 1) rest)
          hnm hp (ih _ (by omega))
        simpa using hg
      · rw [subFuel_cons_some _ hsome]
        apply wf_append_plain
        · intro c hcm
          rcases List.mem_cons.mp hcm with rfl | hcm
          · decide
          rcases List.mem_append.mp hcm with hcm | hcm
          · exact hnm2 c hcm
          · have := List.mem_singleton.mp hcm
            subst this
            decide
        · exact ih n (by omega)

/-- The `_angle` substitution resolves every placeholder of a
well-formed path: the output has no angle brackets. -/
theorem noAngle_subFuel_angle {l : List Char} (h : WFPath l) :
    ∀ fuel, l.length ≤ fuel → noAngle (subFuel stepAngle fuel l) := by
  induction h with
  | nil =>
      intro fuel _ c hc
      cases fuel <;> simp [subFuel] at hc
  | plain c rest hc _ ih =>
      intro fuel hlen
      simp only [List.length_cons] at hlen
      obtain ⟨n, rfl⟩ : ∃ n, fuel = n + 1 := ⟨fuel - 1, by omega⟩
      have hnone : stepAngle (c :: rest) = none := by
        cases h2 : stepAngle (c :: rest) with
        | none => rfl
        | some r =>
            exact absurd (by simpa using stepAngle_head h2) (plainChar_ne_lt hc)
      rw [subFuel_cons_none _ hnone]
      intro x hx
      rcases List.mem_cons.mp hx with rfl | hx2
      · exact hc
      · exact ih n (by omega) x hx2
  | group nm rest hnm hp _ ih =>
      intro fuel hlen
      have hlen2 : nm.length + 2 + rest.length ≤ fuel := by
        simp only [List.length_cons, List.length_append] at hlen
        omega
      obtain ⟨n, rfl⟩ : ∃ n, fuel = n + 1 := ⟨fuel - 1, by omega⟩
      simp only [List.cons_append]
      have hsome : stepAngle ('<' :: (nm ++ '>' :: rest))
          = some ('{' :: nm ++ ['}'], rest) := by
        simp only [stepAngle,
          matchAngleName_group rest hnm (fun c hc => plainChar_ne_gt (hp c hc))]
      rw [subFuel_cons_some _ hsome]
      intro x hx
      rw [List.cons_append] at hx
      rcases List.mem_cons.mp hx with rfl | hx
      · decide
      rcases List.mem_append.mp hx with hx | hx
      · rcases List.mem_append.mp hx with hx | hx
        · exact hp x hx
        · have := List.mem_singleton.mp hx
          subst this
          decide
      · exact ih n (by omega) x hx

theorem dropLast_head?_of_two {l : List Char} (h : 2 ≤ l.length) :
    l.dropLast.head? = l.head? := by
  match l, h with
  | c :: d :: t, _ => simp

/-- Unfolding equation for the first component of `_django_to_openapi`. -/
theorem django_to_openapi_data (p : String) :
    (_django_to_openapi p).1.data
      = '/' :: (subFuel stepAngle (subFuel stepSlug p.data.length p.data).length
          (subFuel stepSlug p.data.length p.data)).dropWhile (· = '/') := rfl

theorem django_to_openapi_head (p : String) :
    (_django_to_openapi p).1.data.head? = some '/' := by
  rw [django_to_openapi_data]
  rfl

theorem django_to_openapi_second (p : String) :
    (_django_to_openapi p).1.data.tail.head? ≠ some '/' := by
  rw [django_to_openapi_data]
  intro h
  simp only [List.tail_cons] at h
  have := head?_dropWhile_false h
  simp at this

theorem django_to_openapi_noAngle {p : String} (h : WFPath p.data) :
    noAngle (_django_to_openapi p).1.data := by
  rw [django_to_openapi_data]
  intro c hc
  rcases List.mem_cons.mp hc with rfl | hc2
  · decide
  · have hwf1 := wf_subFuel_slug h p.data.length le_rfl
    have hna := noAngle_subFuel_angle hwf1 _ le_rfl
    exact hna c ((List.dropWhile_sublist _).subset hc2)

theorem convertCore_head (t : List Char) :
    (convertCore ('/' :: t)).head? = some '/' := by
  have hdj : stepDjangoGeneric ('/' :: t) = none := by
    cases h2 : stepDjangoGeneric ('/' :: t) with
    | none => rfl
    | some r =>
        have := stepDjangoGeneric_head h2
        simp only [List.head?_cons, Option.some.injEq] at this
        exact absurd this (by decide)
  have h1 : subFuel stepDjangoGeneric ('/' :: t).length ('/' :: t)
      = '/' :: subFuel stepDjangoGeneric t.length t := by
    rw [List.length_cons, subFuel_cons_none _ hdj]
  have hrg : ∀ t1 : List Char, stepRegexGroup ('/' :: t1) = none := by
    intro t1
    cases h2 : stepRegexGroup ('/' :: t1) with
    | none => rfl
    | some r =>
        have := stepRegexGroup_head h2
        simp only [List.head?_cons, Option.some.injEq] at this
        exact absurd this (by decide)
  simp only [convertCore]
  rw [h1, List.length_cons, subFuel_cons_none _ (hrg _)]
  set t2 := subFuel stepRegexGroup (subFuel stepDjangoGeneric t.length t).length
    (subFuel stepDjangoGeneric t.length t) with ht2
  by_cases hcond : ('/' :: t2).getLast? = some '/' ∧ ('/' :: t2).length > 1
  · rw [if_pos hcond, dropLast_head?_of_two (by simpa using hcond.2)]
    simp
  · rw [if_neg hcond]
    simp

theorem convert_head (p : String) :
    (convert_django_path_to_openapi p).data.head? = some '/' := by
  by_cases hp : p = ""
  · subst hp; decide
  · unfold convert_django_path_to_openapi
    rw [if_neg hp]
    have hshape : ∃ t, (if p.data.head? = some '/' then p.data else '/' :: p.data)
        = '/' :: t := by
      by_cases hh : p.data.head? = some '/'
      · cases hd : p.data with
        | nil => rw [hd] at hh; simp at hh
        | cons c t =>
            rw [hd] at hh
            simp only [List.head?_cons, Option.some.injEq] at hh
            subst hh
            exact ⟨t, by simp⟩
      · exact ⟨p.data, by rw [if_neg hh]⟩
    obtain ⟨t, ht⟩ := hshape
    rw [ht]
    by_cases hone : convertCore ('/' :: t) = ['/']
    · rw [if_pos hone]; decide
    · rw [if_neg hone]
      exact convertCore_head t

/-- C4 counterexample: the path translator does not satisfy the claim.
`convert_django_path_to_openapi` maps the root path to "/proxy/django"
rather than "/", can return two leading slashes, and its
greedy-converter regex can leave an angle bracket unresolved on a path
whose placeholders are all well formed (a colon between two
placeholders makes the optional converter consume across the first
closing bracket). -/
theorem path_translator_refutes_C4 :
    convert_django_path_to_openapi "/" = "/proxy/django" ∧
    convert_django_path_to_openapi "/" ≠ "/" ∧
    convert_django_path_to_openapi "//x" = "//x" ∧
    convert_django_path_to_openapi "<ab>x:<cd>e" = "/\x7b<cd\x7de" ∧
    '<' ∈ (convert_django_path_to_openapi "<ab>x:<cd>e").data := by
  decide

/-- C4 (amended): `_django_to_openapi` returns a string beginning with
exactly one leading slash, translates the empty and the root path to
"/", and on any path whose angle-bracket placeholders are well formed
it leaves no angle-bracket syntax unresolved.
`convert_django_path_to_openapi` always returns a string beginning with
a slash (not necessarily exactly one) and translates the empty path to
"/", but translates the root path to "/proxy/django". -/
theorem path_translator_C4 (p : String) :
    (_django_to_openapi p).1.data.head? = some '/' ∧
    (_django_to_openapi p).1.data.tail.head? ≠ some '/' ∧
    (_django_to_openapi "").1 = "/" ∧
    (_django_to_openapi "/").1 = "/" ∧
    (WFPath p.data → noAngle (_django_to_openapi p).1.data) ∧
    (convert_django_path_to_openapi p).data.head? = some '/' ∧
    convert_django_path_to_openapi "" = "/" ∧
    convert_django_path_to_openapi "/" = "/proxy/django" := by
  refine ⟨django_to_openapi_head p, django_to_openapi_second p, by decide, by decide,
    fun h => django_to_openapi_noAngle h, convert_head p, by decide, by decide⟩

/-- C4 witness: the amended theorem applied at the concrete input
"<int:id>/x", whose placeholder structure is well formed. -/
theorem path_translator_C4_witness :
    WFPath "<int:id>/x".data ∧ noAngle (_django_to_openapi "<int:id>/x").1.data := by
  have he : "<int:id>/x".data
      = '<' :: ['i', 'n', 't', ':', 'i', 'd'] ++ '>' :: ['/', 'x'] := by decide
  have hwf : WFPath "<int:id>/x".data := by
    rw [he]
    exact WFPath.group ['i', 'n', 't', ':', 'i', 'd'] ['/', 'x'] (by decide)
      (by decide)
      (WFPath.plain '/' ['x'] (by decide)
        (WFPath.plain 'x' [] (by decide) WFPath.nil))
  exact ⟨hwf, (path_translator_C4 "<int:id>/x").2.2.2.2.1 hwf⟩

/-! ### Route records and `_build_spec` (djang.py lines 510-544) -/

/-- A route record as produced by `URLVisitor._add_route`. -/
structure Route where
  path : String
  method : String
  operation_id : String
  description : String
  parameters : List PathParam
deriving DecidableEq, Repr

/-- The sort key of `routes.sort(key=lambda r: (r["path"], r["method"]))`. -/
def routeKey (r : Route) : String × String := (r.path, r.method)

/-- Python tuple-of-strings comparison `(p1, m1) <= (p2, m2)`. -/
def pairLe (a b : String × String) : Prop :=
  a.1 < b.1 ∨ (a.1 = b.1 ∧ a.2 ≤ b.2)

instance : DecidablePred fun ab : (String × String) × String × String => pairLe ab.1 ab.2 :=
  fun _ => by unfold pairLe; infer_instance

instance pairLeDec (a b : String × String) : Decidable (pairLe a b) := by
  unfold pairLe; infer_instance

/-- Route comparison by sort key. -/
def keyLe (r s : Route) : Prop := pairLe (routeKey r) (routeKey s)

instance keyLeDec (r s : Route) : Decidable (keyLe r s) := by
  unfold keyLe; infer_instance

theorem pairLe_refl (a : String × String) : pairLe a a := Or.inr ⟨rfl, le_refl _⟩

theorem pairLe_total (a b : String × String) : pairLe a b ∨ pairLe b a := by
  rcases lt_trichotomy a.1 b.1 with h | h | h
  · exact Or.inl (Or.inl h)
  · rcases le_total a.2 b.2 with h2 | h2
    · exact Or.inl (Or.inr ⟨h, h2⟩)
    · exact Or.inr (Or.inr ⟨h.symm, h2⟩)
  · exact Or.inr (Or.inl h)

theorem pairLe_trans {a b c : String × String}
    (h1 : pairLe a b) (h2 : pairLe b c) : pairLe a c := by
  rcases h1 with h1 | ⟨h1, h1b⟩ <;> rcases h2 with h2 | ⟨h2, h2b⟩
  · exact Or.inl (lt_trans h1 h2)
  · exact Or.inl (h2 ▸ h1)
  · exact Or.inl (h1 ▸ h2)
  · exact Or.inr ⟨h1.trans h2, le_trans h1b h2b⟩

theorem keyLe_total (r s : Route) : keyLe r s ∨ keyLe s r := pairLe_total _ _

theorem keyLe_trans {r s t : Route} (h1 : keyLe r s) (h2 : keyLe s t) :
    keyLe r t := pairLe_trans h1 h2

theorem keyLe_of_eq {r s : Route} (h : routeKey r = routeKey s) : keyLe r s := by
  unfold keyLe; rw [h]; exact pairLe_refl _

/-- Stable insertion: a new element goes after every already-placed
element whose key is less than or equal to its own.  Processing the
list left to right with this insertion is extensionally Python's
`list.sort` (which is a stable sort on the same key). -/
def sInsert (r : Route) : List Route → List Route
  | [] => [r]
  | s :: rest => if keyLe s r then s :: sInsert r rest else r :: s :: rest

/-- The in-place `routes.sort(key=lambda r: (r["path"], r["method"]))`
of `_build_spec` (djang.py line 519), as a stable sort. -/
def sortRoutes (l : List Route) : List Route :=
  l.foldl (fun acc r => sInsert r acc) []

theorem mem_sInsert {x r : Route} {l : List Route} :
    x ∈ sInsert r l ↔ x = r ∨ x ∈ l := by
  induction l with
  | nil => simp [sInsert]
  | cons s rest ih =>
      by_cases h : keyLe s r
      · simp only [sInsert, if_pos h, List.mem_cons, ih]
        try tauto
      · simp only [sInsert, if_neg h, List.mem_cons]
        try tauto

theorem sInsert_perm (r : Route) (l : List Route) :
    List.Perm (sInsert r l) (r :: l) := by
  induction l with
  | nil => simp [sInsert]
  | cons s rest ih =>
      by_cases h : keyLe s r
      · simp only [sInsert, if_pos h]
        exact ((ih.cons s).trans (List.Perm.swap r s rest))
      · simp [sInsert, if_neg h]

theorem sInsert_pairwise {r : Route} {l : List Route}
    (h : l.Pairwise keyLe) : (sInsert r l).Pairwise keyLe := by
  induction l with
  | nil => simp [sInsert]
  | cons s rest ih =>
      rcases List.pairwise_cons.mp h with ⟨h1, h2⟩
      by_cases hle : keyLe s r
      · simp only [sInsert, if_pos hle]
        refine List.pairwise_cons.mpr ⟨?_, ih h2⟩
        intro x hx
        rcases mem_sInsert.mp hx with rfl | hx
        · exact hle
        · exact h1 x hx
      · simp only [sInsert, if_neg hle]
        refine List.pairwise_cons.mpr ⟨?_, h⟩
        intro x hx
        have hrs : keyLe r s := (keyLe_total r s).resolve_right hle
        rcases List.mem_cons.mp hx with rfl | hx
        · exact hrs
        · exact keyLe_trans hrs (h1 x hx)

theorem sortRoutes_core_perm (l : List Route) :
    ∀ acc : List Route, List.Perm (l.foldl (fun acc r => sInsert r acc) acc) (acc ++ l) := by
  induction l with
  | nil => intro acc; simp
  | cons x l ih =>
      intro acc
      have h1 : (x :: l).foldl (fun acc r => sInsert r acc) acc
          = l.foldl (fun acc r => sInsert r acc) (sInsert x acc) := by
        simp [List.foldl]
      rw [h1]
      refine (ih (sInsert x acc)).trans ?_
      refine (((sInsert_perm x acc).append_right l).trans ?_)
      simpa using (@List.perm_middle Route x acc l).symm

theorem sortRoutes_perm (l : List Route) : List.Perm (sortRoutes l) l := by
  simpa using sortRoutes_core_perm l []

theorem sortRoutes_core_pairwise (l : List Route) :
    ∀ acc : List Route, acc.Pairwise keyLe →
      (l.foldl (fun acc r => sInsert r acc) acc).Pairwise keyLe := by
  induction l with
  | nil => intro acc h; simpa
  | cons x l ih =>
      intro acc h
      simpa [List.foldl] using ih (sInsert x acc) (sInsert_pairwise h)

theorem sortRoutes_pairwise (l : List Route) : (sortRoutes l).Pairwise keyLe :=
  sortRoutes_core_pairwise l [] (by simp)

theorem sInsert_append_last {r : Route} {acc : List Route}
    (h : ∀ a ∈ acc, keyLe a r) : sInsert r acc = acc ++ [r] := by
  induction acc with
  | nil => simp [sInsert]
  | cons s rest ih =>
      simp only [sInsert, if_pos (h s (by simp))]
      rw [ih (fun a ha => h a (by simp [ha]))]
      simp

theorem sorted_foldl_eq (l : List Route) :
    ∀ acc : List Route, (acc ++ l).Pairwise keyLe →
      l.foldl (fun acc r => sInsert r acc) acc = acc ++ l := by
  induction l with
  | nil => intro acc _; simp
  | cons x l ih =>
      intro acc h
      have hx : ∀ a ∈ acc, keyLe a x := by
        intro a ha
        exact (List.pairwise_append.mp h).2.2 a ha x (by simp)
      have step : (x :: l).foldl (fun acc r => sInsert r acc) acc
          = l.foldl (fun acc r => sInsert r acc) (acc ++ [x]) := by
        simp [List.foldl, sInsert_append_last hx]
      rw [step, ih (acc ++ [x]) (by simpa using h)]
      simp

theorem sortRoutes_of_pairwise {l : List Route} (h : l.Pairwise keyLe) :
    sortRoutes l = l := by
  simpa using sorted_foldl_eq l [] (by simpa)

theorem sortRoutes_idem (l : List Route) :
    sortRoutes (sortRoutes l) = sortRoutes l :=
  sortRoutes_of_pairwise (sortRoutes_pairwise l)

/-- Records with a given sort key, in order (used to state stability
and first-wins deduplication). -/
def filterK (k : String × String) (l : List Route) : List Route :=
  l.filter (fun x => decide (routeKey x = k))

theorem filterK_nil (k : String × String) : filterK k [] = [] := rfl

theorem filterK_cons (k : String × String) (r : Route) (l : List Route) :
    filterK k (r :: l)
      = if routeKey r = k then r :: filterK k l else filterK k l := by
  simp [filterK, List.filter_cons]

theorem filter_sInsert (k : String × String) (r : Route) (acc : List Route)
    (hs : acc.Pairwise keyLe) :
    filterK k (sInsert r acc)
      = if routeKey r = k then filterK k acc ++ [r] else filterK k acc := by
  induction acc with
  | nil =>
      by_cases h : routeKey r = k <;> simp [sInsert, filterK, List.filter_cons, h]
  | cons s rest ih =>
      rcases List.pairwise_cons.mp hs with ⟨h1, h2⟩
      by_cases hle : keyLe s r
      · simp only [sInsert, if_pos hle]
        rw [filterK_cons, filterK_cons, ih h2]
        by_cases hkr : routeKey r = k <;> by_cases hks : routeKey s = k <;>
          simp [hkr, hks]
      · simp only [sInsert, if_neg hle]
        by_cases hkr : routeKey r = k
        · have hnone : filterK k (s :: rest) = [] := by
            apply List.filter_eq_nil_iff.mpr
            intro a ha
            rcases List.mem_cons.mp ha with rfl | ha
            · intro hc
              simp only [decide_eq_true_eq] at hc
              exact hle (keyLe_of_eq (by rw [hc, ← hkr]))
            · intro hc
              simp only [decide_eq_true_eq] at hc
              have hsx := h1 a ha
              have : keyLe s r := by
                unfold keyLe at hsx ⊢
                rwa [hc, ← hkr] at hsx
              exact hle this
          rw [filterK_cons, if_pos hkr, hnone, if_pos hkr]
          simp
        · rw [filterK_cons, if_neg hkr, if_neg hkr]

theorem filterK_foldl (k : String × String) (l : List Route) :
    ∀ acc : List Route, acc.Pairwise keyLe →
      filterK k (l.foldl (fun acc r => sInsert r acc) acc)
        = filterK k acc ++ filterK k l := by
  induction l with
  | nil => intro acc _; simp [filterK]
  | cons x l ih =>
      intro acc hacc
      have step : (x :: l).foldl (fun acc r => sInsert r acc) acc
          = l.foldl (fun acc r => sInsert r acc) (sInsert x acc) := by
        simp [List.foldl]
      rw [step, ih (sInsert x acc) (sInsert_pairwise hacc),
        filter_sInsert k x acc hacc, filterK_cons]
      by_cases hkx : routeKey x = k <;> simp [hkx]

/-- Stability of the embedded sort: records with any fixed
`(path, method)` key keep their original relative order. -/
theorem filterK_sortRoutes (k : String × String) (l : List Route) :
    filterK k (sortRoutes l) = filterK k l := by
  have := filterK_foldl k l [] (by simp)
  simpa [filterK] using this

/-- The dedup key `f"{r['path']}:{r['method']}"` (djang.py line 525). -/
def skey (r : Route) : String := r.path ++ ":" ++ r.method

/-- The dedup loop of `_build_spec` (djang.py lines 522-528): first
occurrence of each string key wins, later duplicates are dropped. -/
def dedupRoutes : List Route → List String → List Route
  | [], _ => []
  | r :: rest, seen =>
    if skey r ∈ seen then dedupRoutes rest seen
    else r :: dedupRoutes rest (skey r :: seen)

theorem append_colon_inj : ∀ {l1 : List Char} {m1 : List Char} {l2 m2 : List Char},
    ':' ∉ m1 → ':' ∉ m2 → l1 ++ ':' :: m1 = l2 ++ ':' :: m2 →
    l1 = l2 ∧ m1 = m2 := by
  intro l1
  induction l1 with
  | nil =>
      intro m1 l2 m2 hm1 hm2 h
      cases l2 with
      | nil => simpa using h
      | cons c t2 =>
          simp only [List.nil_append, List.cons_append, List.cons.injEq] at h
          exact absurd (h.2 ▸ (by simp : ':' ∈ t2 ++ ':' :: m2)) hm1
  | cons c t1 ih =>
      intro m1 l2 m2 hm1 hm2 h
      cases l2 with
      | nil =>
          simp only [List.nil_append, List.cons_append, List.cons.injEq] at h
          exact absurd (h.2.symm ▸ (by simp : ':' ∈ t1 ++ ':' :: m1)) hm2
      | cons c2 t2 =>
          simp only [List.cons_append, List.cons.injEq] at h
          obtain ⟨rfl, h2⟩ := h
          obtain ⟨rfl, rfl⟩ := ih hm1 hm2 h2
          exact ⟨rfl, rfl⟩

/-- With colon-free methods (the data model makes methods lowercase
HTTP verbs) the string dedup key determines the `(path, method)` pair. -/
theorem skey_eq_iff {r : Route} {k : String × String}
    (h1 : ':' ∉ r.method.data) (h2 : ':' ∉ k.2.data) :
    k.1 ++ ":" ++ k.2 = skey r ↔ routeKey r = k := by
  constructor
  · intro h
    have hd : k.1.data ++ ':' :: k.2.data = r.path.data ++ ':' :: r.method.data := by
      have := congrArg String.data h
      simpa [skey, String.data_append] using this
    obtain ⟨hp, hm⟩ := append_colon_inj h2 h1 hd
    have hps : k.1 = r.path := String.ext hp
    have hms : k.2 = r.method := String.ext hm
    cases k
    simp only [routeKey, Prod.mk.injEq]
    exact ⟨hps.symm, hms.symm⟩
  · intro h
    cases k
    simp only [routeKey, Prod.mk.injEq] at h
    rw [skey, ← h.1, ← h.2]

/-- First-wins deduplication at the level of key-filtered sublists:
after dedup, each `(path, method)` key keeps exactly its first record
(provided methods are colon-free so that string keys are faithful). -/
theorem filterK_dedup (k : String × String) (hk : ':' ∉ k.2.data) :
    ∀ (rs : List Route) (seen : List String),
      (∀ r ∈ rs, ':' ∉ r.method.data) →
      filterK k (dedupRoutes rs seen)
        = if (k.1 ++ ":" ++ k.2) ∈ seen then [] else (filterK k rs).take 1 := by
  intro rs
  induction rs with
  | nil =>
      intro seen _
      simp [dedupRoutes, filterK]
  | cons r rest ih =>
      intro seen hcf
      have hcfr : ':' ∉ r.method.data := hcf r (by simp)
      have hcfrest : ∀ x ∈ rest, ':' ∉ x.method.data :=
        fun x hx => hcf x (by simp [hx])
      by_cases hseen : skey r ∈ seen
      · simp only [dedupRoutes, if_pos hseen]
        rw [ih seen hcfrest, filterK_cons]
        by_cases hkr : routeKey r = k
        · have hin : k.1 ++ ":" ++ k.2 ∈ seen := by
            rw [(skey_eq_iff hcfr hk).mpr hkr]
            exact hseen
          rw [if_pos hin, if_pos hin]
        · rw [if_neg hkr]
      · simp only [dedupRoutes, if_neg hseen]
        rw [filterK_cons]
        by_cases hkr : routeKey r = k
        · have hkeq : k.1 ++ ":" ++ k.2 = skey r := (skey_eq_iff hcfr hk).mpr hkr
          have hnotin : k.1 ++ ":" ++ k.2 ∉ seen := by rw [hkeq]; exact hseen
          rw [if_pos hkr, ih (skey r :: seen) hcfrest,
            if_pos (by rw [hkeq]; simp), if_neg hnotin, filterK_cons, if_pos hkr]
          simp
        · have hiff : (k.1 ++ ":" ++ k.2 ∈ skey r :: seen)
              ↔ (k.1 ++ ":" ++ k.2 ∈ seen) := by
            constructor
            · intro h
              rcases List.mem_cons.mp h with h | h
              · exact absurd ((skey_eq_iff hcfr hk).mp h) hkr
              · exact h
            · intro h; simp [h]
          rw [if_neg hkr, ih (skey r :: seen) hcfrest, filterK_cons, if_neg hkr]
          by_cases hs2 : k.1 ++ ":" ++ k.2 ∈ seen
          · rw [if_pos (hiff.mpr hs2), if_pos hs2]
          · rw [if_neg (fun hc => hs2 (hiff.mp hc)), if_neg hs2]

/-- An operation object as assembled by `_build_spec` (djang.py lines
530-537); `responses` is the constant `{"200": ...}` and is omitted,
`parameters` is present only when the route has a nonempty list. -/
structure Operation where
  operationId : String
  description : String
  parameters : Option (List PathParam)
deriving DecidableEq, Repr

def mkOperation (r : Route) : Operation :=
  ⟨r.operation_id, r.description,
    if r.parameters = [] then none else some r.parameters⟩

/-- Replace the value of every entry with key `k` (dictionary update). -/
def updAssoc {γ : Type} (l : List (String × γ)) (k : String) (f : γ → γ) :
    List (String × γ) :=
  l.map fun e => if e.1 = k then (k, f e.2) else e

/-- `operations.update({method: op})` on one path item of the apispec
document: replace the method's operation or append it. -/
def updOps (ops : List (String × Operation)) (m : String) (o : Operation) :
    List (String × Operation) :=
  if ops.any (fun e => e.1 == m) then updAssoc ops m (fun _ => o)
  else ops ++ [(m, o)]

/-- `spec.path(path=..., operations={method: op})`: merge one operation
into the paths mapping (apispec keeps insertion order and merges
per-path operation dictionaries). -/
def addPath (d : List (String × List (String × Operation))) (p m : String)
    (o : Operation) : List (String × List (String × Operation)) :=
  if d.any (fun e => e.1 == p) then updAssoc d p (fun ops => updOps ops m o)
  else d ++ [(p, [(m, o)])]

/-- The assembled document: paths plus the fixed `servers` entry. -/
structure SpecDoc where
  paths : List (String × List (String × Operation))
  servers : List (String × String)
deriving DecidableEq

/-- Embedding of `_build_spec` (djang.py lines 510-544): sort the route
list in place, drop duplicate `(path, method)` string keys (first
occurrence wins), fold the survivors into the document, and attach the
fixed servers entry.  The second component is the caller's list after
the in-place sort. -/
def _build_spec (routes : List Route) : SpecDoc × List Route :=
  let sorted := sortRoutes routes
  let uniq := dedupRoutes sorted []
  let doc := uniq.foldl (fun d r => addPath d r.path r.method (mkOperation r)) []
  (⟨doc, [("/proxy/django", "API with base path")]⟩, sorted)

/-- Look an operation up in the assembled paths mapping. -/
def getOp (d : List (String × List (String × Operation))) (p m : String) :
    Option Operation :=
  match d.find? (fun e => e.1 == p) with
  | some e => (e.2.find? (fun x => x.1 == m)).map Prod.snd
  | none => none

/-- Number of operations stored for a `(path, method)` pair. -/
def countOp (d : List (String × List (String × Operation))) (p m : String) : Nat :=
  ((d.filter (fun e => e.1 == p)).map
    fun e => (e.2.filter (fun x => x.1 == m)).length).sum

section AssocLemmas

variable {γ : Type}

theorem find?_cons_beq {α : Type} (p : α → Bool) (a : α) (t : List α) :
    (a :: t).find? p = if p a then some a else t.find? p := by
  rw [List.find?_cons]
  by_cases h : p a <;> simp [h]

theorem filter_cons_beq {α : Type} (p : α → Bool) (a : α) (t : List α) :
    (a :: t).filter p = if p a then a :: t.filter p else t.filter p := by
  rw [List.filter_cons]

theorem find?_updAssoc_same (l : List (String × γ)) (k : String) (f : γ → γ) :
    (updAssoc l k f).find? (fun e => e.1 == k)
      = (l.find? (fun e => e.1 == k)).map (fun e => (k, f e.2)) := by
  induction l with
  | nil => simp [updAssoc]
  | cons e t ih =>
      by_cases he : e.1 = k
      · simp [updAssoc, he, find?_cons_beq]
      · have hb : (e.1 == k) = false := by simpa using he
        simp only [updAssoc, List.map_cons, if_neg he, find?_cons_beq, hb,
          if_false] at ih ⊢
        exact ih

theorem find?_updAssoc_other (l : List (String × γ)) {k k' : String}
    (hne : k' ≠ k) (f : γ → γ) :
    (updAssoc l k f).find? (fun e => e.1 == k')
      = l.find? (fun e => e.1 == k') := by
  induction l with
  | nil => simp [updAssoc]
  | cons e t ih =>
      by_cases he : e.1 = k
      · have hb1 : ((k : String) == k') = false := by
          simpa using fun hc => hne hc.symm
        have hb2 : (e.1 == k') = false := by
          simp only [beq_eq_false_iff_ne, ne_eq]
          intro hc
          exact hne (hc ▸ he.symm ▸ rfl)
        simp only [updAssoc, List.map_cons, if_pos he, find?_cons_beq, hb1, hb2,
          if_false] at ih ⊢
        exact ih
      · by_cases he2 : e.1 = k'
        · have hb : (e.1 == k') = true := by simpa using he2
          simp only [updAssoc, List.map_cons, if_neg he, find?_cons_beq, hb, if_true]
        · have hb : (e.1 == k') = false := by simpa using he2
          simp only [updAssoc, List.map_cons, if_neg he, find?_cons_beq, hb,
            if_false] at ih ⊢
          exact ih

theorem find?_append_none {α : Type} (p : α → Bool) {l1 : List α}
    (l2 : List α) (h : l1.find? p = none) :
    (l1 ++ l2).find? p = l2.find? p := by
  induction l1 with
  | nil => simp
  | cons a t ih =>
      rw [find?_cons_beq] at h
      by_cases hpa : p a
      · rw [if_pos hpa] at h; exact absurd h (by simp)
      · rw [if_neg hpa] at h
        simp only [List.cons_append, find?_cons_beq, if_neg hpa]
        exact ih h

theorem find?_none_of_not_any {α : Type} {p : α → Bool} {l : List α}
    (h : ¬ l.any p = true) : l.find? p = none := by
  rw [List.find?_eq_none]
  intro x hx hpx
  exact h (List.any_eq_true.mpr ⟨x, hx, hpx⟩)

theorem filter_updAssoc_same (l : List (String × γ)) (k : String) (f : γ → γ) :
    (updAssoc l k f).filter (fun e => e.1 == k)
      = (l.filter (fun e => e.1 == k)).map (fun e => (k, f e.2)) := by
  induction l with
  | nil => simp [updAssoc]
  | cons e t ih =>
      by_cases he : e.1 = k
      · simp only [updAssoc, List.map_cons, if_pos he, filter_cons_beq] at ih ⊢
        rw [if_pos (by simp), if_pos (by simpa using he)]
        simp only [List.map_cons]
        rw [ih]
      · have hb : (e.1 == k) = false := by simpa using he
        simp only [updAssoc, List.map_cons, if_neg he, filter_cons_beq, hb,
          if_false] at ih ⊢
        exact ih

theorem filter_updAssoc_other (l : List (String × γ)) {k k' : String}
    (hne : k' ≠ k) (f : γ → γ) :
    (updAssoc l k f).filter (fun e => e.1 == k')
      = l.filter (fun e => e.1 == k') := by
  induction l with
  | nil => simp [updAssoc]
  | cons e t ih =>
      by_cases he : e.1 = k
      · have hb1 : ((k : String) == k') = false := by
          simpa using fun hc => hne hc.symm
        have hb2 : (e.1 == k') = false := by
          simp only [beq_eq_false_iff_ne, ne_eq]
          intro hc
          exact hne (hc ▸ he.symm ▸ rfl)
        simp only [updAssoc, List.map_cons, if_pos he, filter_cons_beq, hb1, hb2,
          if_false] at ih ⊢
        exact ih
      · by_cases he2 : e.1 = k'
        · have hb : (e.1 == k') = true := by simpa using he2
          simp only [updAssoc, List.map_cons, if_neg he, filter_cons_beq, hb,
            if_true] at ih ⊢
          rw [ih]
        · have hb : (e.1 == k') = false := by simpa using he2
          simp only [updAssoc, List.map_cons, if_neg he, filter_cons_beq, hb,
            if_false] at ih ⊢
          exact ih

theorem keys_updAssoc (l : List (String × γ)) (k : String) (f : γ → γ) :
    (updAssoc l k f).map Prod.fst = l.map Prod.fst := by
  induction l with
  | nil => simp [updAssoc]
  | cons e t ih =>
      by_cases he : e.1 = k <;>
        simp only [updAssoc, List.map_cons, if_pos, if_neg, he] at ih ⊢ <;>
        simp [he, ih]

theorem filter_key_of_nodup {l : List (String × γ)} (k : String)
    (h : (l.map Prod.fst).Nodup) :
    l.filter (fun e => e.1 == k)
      = match l.find? (fun e => e.1 == k) with
        | some e => [e]
        | none => [] := by
  induction l with
  | nil => simp
  | cons e t ih =>
      simp only [List.map_cons, List.nodup_cons] at h
      by_cases he : e.1 = k
      · have hnone : t.filter (fun e => e.1 == k) = [] := by
          apply List.filter_eq_nil_iff.mpr
          intro a ha hc
          simp only [beq_iff_eq] at hc
          exact h.1 (by
            have : a.1 ∈ t.map Prod.fst := List.mem_map_of_mem Prod.fst ha
            rwa [hc, ← he] at this)
        have hb : (e.1 == k) = true := by simpa using he
        simp [filter_cons_beq, find?_cons_beq, hb, hnone]
      · have hb : (e.1 == k) = false := by simpa using he
        simp only [filter_cons_beq, find?_cons_beq, hb, if_false]
        exact ih h.2

end AssocLemmas

theorem find?_append_some {α : Type} (p : α → Bool) {l1 : List α} {a : α}
    (l2 : List α) (h : l1.find? p = some a) : (l1 ++ l2).find? p = some a := by
  induction l1 with
  | nil => simp at h
  | cons b t ih =>
      rw [find?_cons_beq] at h
      by_cases hpb : p b
      · rw [if_pos hpb] at h
        simp only [List.cons_append, find?_cons_beq, if_pos hpb]
        exact h
      · rw [if_neg hpb] at h
        simp only [List.cons_append, find?_cons_beq, if_neg hpb]
        exact ih h

theorem find?_of_any {γ : Type} {d : List (String × γ)} {p : String}
    (h : d.any (fun e => e.1 == p) = true) :
    ∃ e, d.find? (fun e => e.1 == p) = some e := by
  cases hf : d.find? (fun e => e.1 == p) with
  | some e => exact ⟨e, rfl⟩
  | none =>
      obtain ⟨x, hx, hpx⟩ := List.any_eq_true.mp h
      exact absurd hpx (by simpa using List.find?_eq_none.mp hf x hx)

theorem find?_updOps_same (ops : List (String × Operation)) (m : String)
    (o : Operation) :
    (updOps ops m o).find? (fun x => x.1 == m) = some (m, o) := by
  unfold updOps
  by_cases h : ops.any (fun e => e.1 == m)
  · rw [if_pos h, find?_updAssoc_same]
    obtain ⟨e, hf⟩ := find?_of_any h
    rw [hf]
    rfl
  · rw [if_neg h, find?_append_none _ _ (find?_none_of_not_any h)]
    simp [find?_cons_beq]

theorem find?_updOps_other (ops : List (String × Operation)) {m mq : String}
    (hne : mq ≠ m) (o : Operation) :
    (updOps ops m o).find? (fun x => x.1 == mq)
      = ops.find? (fun x => x.1 == mq) := by
  unfold updOps
  by_cases h : ops.any (fun e => e.1 == m)
  · rw [if_pos h, find?_updAssoc_other _ hne]
  · rw [if_neg h]
    cases hf : ops.find? (fun x => x.1 == mq) with
    | some e => rw [find?_append_some _ _ hf]
    | none =>
        rw [find?_append_none _ _ hf]
        simp [find?_cons_beq, show ((m : String) == mq) = false by
          simpa using fun hc => hne hc.symm]

theorem getOp_addPath_same (d : List (String × List (String × Operation)))
    (p m : String) (o : Operation) :
    getOp (addPath d p m o) p m = some o := by
  unfold getOp addPath
  by_cases h : d.any (fun e => e.1 == p)
  · rw [if_pos h, find?_updAssoc_same]
    obtain ⟨e, hf⟩ := find?_of_any h
    rw [hf]
    simp [find?_updOps_same]
  · rw [if_neg h, find?_append_none _ _ (find?_none_of_not_any h)]
    simp [find?_cons_beq]

theorem getOp_addPath_other (d : List (String × List (String × Operation)))
    (p m : String) (o : Operation) {pq mq : String}
    (hne : ¬(p = pq ∧ m = mq)) :
    getOp (addPath d p m o) pq mq = getOp d pq mq := by
  unfold getOp addPath
  by_cases hp : pq = p
  · have hm : mq ≠ m := fun hc => hne ⟨hp.symm, hc.symm⟩
    by_cases h : d.any (fun e => e.1 == p)
    · rw [if_pos h, hp, find?_updAssoc_same]
      obtain ⟨e, hf⟩ := find?_of_any h
      rw [hf]
      simp [find?_updOps_other _ hm]
    · rw [if_neg h]
      have hfn := find?_none_of_not_any h
      rw [hp, find?_append_none _ _ hfn, hfn]
      simp [find?_cons_beq, show ((m : String) == mq) = false by
        simpa using fun hc => hm hc.symm]
  · by_cases h : d.any (fun e => e.1 == p)
    · rw [if_pos h, find?_updAssoc_other _ hp]
    · rw [if_neg h]
      cases hf : d.find? (fun e => e.1 == pq) with
      | some e => rw [find?_append_some _ _ hf]
      | none =>
          rw [find?_append_none _ _ hf]
          simp [find?_cons_beq, show ((p : String) == pq) = false by
            simpa using fun hc => hp hc.symm]

/-- Well-formedness of the assembled paths mapping: no duplicate path
keys and no duplicate method keys inside a path item (dictionaries in
the source). -/
def PathsWF (d : List (String × List (String × Operation))) : Prop :=
  (d.map Prod.fst).Nodup ∧ ∀ e ∈ d, (e.2.map Prod.fst).Nodup

theorem pathsWF_nil : PathsWF [] := ⟨List.nodup_nil, by simp⟩

theorem key_notMem_of_not_any {γ : Type} {l : List (String × γ)} {k : String}
    (h : ¬ l.any (fun e => e.1 == k) = true) : k ∉ l.map Prod.fst := by
  intro hc
  rcases List.mem_map.mp hc with ⟨e, he, hee⟩
  exact h (List.any_eq_true.mpr ⟨e, he, by simp [hee]⟩)

theorem updOps_keys_nodup {ops : List (String × Operation)}
    (h : (ops.map Prod.fst).Nodup) (m : String) (o : Operation) :
    ((updOps ops m o).map Prod.fst).Nodup := by
  unfold updOps
  by_cases ha : ops.any (fun e => e.1 == m)
  · rw [if_pos ha, keys_updAssoc]; exact h
  · rw [if_neg ha]
    have hm := key_notMem_of_not_any ha
    simp only [List.map_append, List.map_cons, List.map_nil]
    rw [List.nodup_append]
    refine ⟨h, List.nodup_singleton m, ?_⟩
    intro x hx hcx
    have hxm : x = m := by simpa using hcx
    subst hxm
    exact hm hx

theorem pathsWF_addPath {d : List (String × List (String × Operation))}
    (h : PathsWF d) (p m : String) (o : Operation) :
    PathsWF (addPath d p m o) := by
  obtain ⟨h1, h2⟩ := h
  unfold addPath
  by_cases ha : d.any (fun e => e.1 == p)
  · rw [if_pos ha]
    refine ⟨by rw [keys_updAssoc]; exact h1, ?_⟩
    intro e he
    rcases List.mem_map.mp he with ⟨e0, he0, hee⟩
    by_cases h0 : e0.1 = p
    · rw [if_pos h0] at hee
      rw [← hee]
      exact updOps_keys_nodup (h2 e0 he0) m o
    · rw [if_neg h0] at hee
      rw [← hee]
      exact h2 e0 he0
  · rw [if_neg ha]
    have hp := key_notMem_of_not_any ha
    refine ⟨?_, ?_⟩
    · simp only [List.map_append, List.map_cons, List.map_nil]
      rw [List.nodup_append]
      refine ⟨h1, List.nodup_singleton p, ?_⟩
      intro x hx hcx
      have hxp : x = p := by simpa using hcx
      subst hxp
      exact hp hx
    · intro e he
      rcases List.mem_append.mp he with he | he
      · exact h2 e he
      · have := List.mem_singleton.mp he
        subst this
        simp

theorem count_updOps_same {ops : List (String × Operation)}
    (h : (ops.map Prod.fst).Nodup) (m : String) (o : Operation) :
    ((updOps ops m o).filter (fun x => x.1 == m)).length = 1 := by
  unfold updOps
  by_cases ha : ops.any (fun e => e.1 == m)
  · rw [if_pos ha, filter_updAssoc_same, filter_key_of_nodup m h]
    obtain ⟨e, hf⟩ := find?_of_any ha
    rw [hf]
    rfl
  · rw [if_neg ha, List.filter_append]
    have hz : ops.filter (fun x => x.1 == m) = [] := by
      apply List.filter_eq_nil_iff.mpr
      intro a ha2 hc
      exact ha (List.any_eq_true.mpr ⟨a, ha2, hc⟩)
    rw [hz]
    simp [filter_cons_beq]

theorem count_updOps_other {ops : List (String × Operation)} {m mq : String}
    (hne : mq ≠ m) (o : Operation) :
    ((updOps ops m o).filter (fun x => x.1 == mq)).length
      = (ops.filter (fun x => x.1 == mq)).length := by
  unfold updOps
  by_cases ha : ops.any (fun e => e.1 == m)
  · rw [if_pos ha, filter_updAssoc_other _ hne]
  · rw [if_neg ha, List.filter_append]
    have hz : List.filter (fun x => x.1 == mq) [(m, o)] = [] := by
      simp [filter_cons_beq, show ((m : String) == mq) = false by
        simpa using fun hc => hne hc.symm]
    rw [hz]
    simp

theorem countOp_addPath_same {d : List (String × List (String × Operation))}
    (h : PathsWF d) (p m : String) (o : Operation) :
    countOp (addPath d p m o) p m = 1 := by
  obtain ⟨h1, h2⟩ := h
  unfold countOp addPath
  by_cases ha : d.any (fun e => e.1 == p)
  · rw [if_pos ha, filter_updAssoc_same, filter_key_of_nodup p h1]
    obtain ⟨e, hf⟩ := find?_of_any ha
    rw [hf]
    simp only [List.map_cons, List.map_nil, List.sum_cons, List.sum_nil]
    rw [count_updOps_same (h2 e (List.mem_of_find?_eq_some hf)) m o]
    omega
  · rw [if_neg ha, List.filter_append]
    have hz : d.filter (fun e => e.1 == p) = [] := by
      apply List.filter_eq_nil_iff.mpr
      intro a ha2 hc
      exact ha (List.any_eq_true.mpr ⟨a, ha2, hc⟩)
    rw [hz]
    simp [filter_cons_beq]

theorem countOp_addPath_other {d : List (String × List (String × Operation))}
    (h : PathsWF d) (p m : String) (o : Operation) {pq mq : String}
    (hne : ¬(p = pq ∧ m = mq)) :
    countOp (addPath d p m o) pq mq = countOp d pq mq := by
  obtain ⟨h1, h2⟩ := h
  unfold countOp addPath
  by_cases hp : pq = p
  · have hm : mq ≠ m := fun hc => hne ⟨hp.symm, hc.symm⟩
    by_cases ha : d.any (fun e => e.1 == p)
    · rw [if_pos ha, hp, filter_updAssoc_same, filter_key_of_nodup p h1]
      obtain ⟨e, hf⟩ := find?_of_any ha
      rw [hf]
      simp only [List.map_cons, List.map_nil, List.sum_cons, List.sum_nil]
      rw [count_updOps_other hm o]
    · rw [if_neg ha, hp, List.filter_append]
      have hz : d.filter (fun e => e.1 == p) = [] := by
        apply List.filter_eq_nil_iff.mpr
        intro a ha2 hc
        exact ha (List.any_eq_true.mpr ⟨a, ha2, hc⟩)
      rw [hz]
      simp [filter_cons_beq, show ((m : String) == mq) = false by
        simpa using fun hc => hm hc.symm]
  · by_cases ha : d.any (fun e => e.1 == p)
    · rw [if_pos ha, filter_updAssoc_other _ hp]
    · rw [if_neg ha, List.filter_append]
      have hz : List.filter (fun e => e.1 == pq) [(p, [(m, o)])] = [] := by
        simp [filter_cons_beq, show ((p : String) == pq) = false by
          simpa using fun hc => hp hc.symm]
      rw [hz]
      simp

/-- The document fold of `_build_spec`: looking up `(p, m)` yields the
operation of the last processed record with that key (on top of
whatever the accumulator held). -/
theorem getOp_foldl (p m : String) (rs : List Route) :
    ∀ d : List (String × List (String × Operation)),
      getOp (rs.foldl (fun d r => addPath d r.path r.method (mkOperation r)) d) p m
        = (rs.filter (fun r => decide (routeKey r = (p, m)))).foldl
            (fun _ r => some (mkOperation r)) (getOp d p m) := by
  induction rs with
  | nil => intro d; simp
  | cons r rs ih =>
      intro d
      simp only [List.foldl_cons, List.filter_cons]
      by_cases hk : routeKey r = (p, m)
      · obtain ⟨hp, hm⟩ := Prod.mk.injEq _ _ _ _ ▸ hk
        have hget : getOp (addPath d r.path r.method (mkOperation r)) p m
            = some (mkOperation r) := by
          rw [← hp, ← hm]
          exact getOp_addPath_same d r.path r.method (mkOperation r)
        rw [ih]
        simp [hk, hget]
      · have hget : getOp (addPath d r.path r.method (mkOperation r)) p m
            = getOp d p m := by
          apply getOp_addPath_other
          intro ⟨hp, hm⟩
          exact hk (by simp [routeKey, hp, hm])
        rw [ih]
        simp [hk, hget]

theorem pathsWF_foldl (rs : List Route) :
    ∀ d : List (String × List (String × Operation)), PathsWF d →
      PathsWF (rs.foldl (fun d r => addPath d r.path r.method (mkOperation r)) d) := by
  induction rs with
  | nil => intro d h; simpa
  | cons r rs ih =>
      intro d h
      simp only [List.foldl_cons]
      exact ih _ (pathsWF_addPath h _ _ _)

theorem countOp_foldl (p m : String) (rs : List Route) :
    ∀ d : List (String × List (String × Operation)), PathsWF d →
      countOp (rs.foldl (fun d r => addPath d r.path r.method (mkOperation r)) d) p m
        = if ∃ r ∈ rs, routeKey r = (p, m) then 1 else countOp d p m := by
  induction rs with
  | nil => intro d _; simp
  | cons r rs ih =>
      intro d hwf
      simp only [List.foldl_cons]
      by_cases hk : routeKey r = (p, m)
      · obtain ⟨hp, hm⟩ := Prod.mk.injEq _ _ _ _ ▸ hk
        rw [ih _ (pathsWF_addPath hwf _ _ _)]
        by_cases hex : ∃ x ∈ rs, routeKey x = (p, m)
        · rw [if_pos hex, if_pos ⟨r, by simp, hk⟩]
        · rw [if_neg hex, if_pos ⟨r, by simp, hk⟩]
          rw [← hp, ← hm]
          exact countOp_addPath_same hwf r.path r.method (mkOperation r)
      · rw [ih _ (pathsWF_addPath hwf _ _ _)]
        have hcnt : countOp (addPath d r.path r.method (mkOperation r)) p m
            = countOp d p m := by
          apply countOp_addPath_other hwf
          intro ⟨hp, hm⟩
          exact hk (by simp [routeKey, hp, hm])
        by_cases hex : ∃ x ∈ rs, routeKey x = (p, m)
        · rw [if_pos hex, if_pos (by
            obtain ⟨x, hx, hkx⟩ := hex
            exact ⟨x, by simp [hx], hkx⟩)]
        · rw [if_neg hex, hcnt, if_neg (by
            intro ⟨x, hx, hkx⟩
            rcases List.mem_cons.mp hx with rfl | hx2
            · exact hk hkx
            · exact hex ⟨x, hx2, hkx⟩)]

theorem build_spec_paths (routes : List Route) :
    (_build_spec routes).1.paths
      = (dedupRoutes (sortRoutes routes) []).foldl
          (fun d r => addPath d r.path r.method (mkOperation r)) [] := rfl

/-- C5: deduplication in the spec assembler is idempotent and
first-wins.  On a route list whose methods are colon-free (the data
model makes them lowercase HTTP verbs, so the string dedup key
`path:method` is faithful): (a) if the list has no duplicate
`(path, method)` keys, assembling the mutated list again yields the
identical result; (b) for any `(path, method)` pair present in the
list, the assembled document holds exactly one operation for that pair
and it is built from the first-occurring record with that key. -/
theorem build_spec_C5 (routes : List Route)
    (hcf : ∀ r ∈ routes, ':' ∉ r.method.data) :
    (List.Pairwise (fun a b => routeKey a ≠ routeKey b) routes →
        _build_spec ((_build_spec routes).2) = _build_spec routes) ∧
    (∀ p m : String, ':' ∉ m.data →
      ∀ r : Route, (filterK (p, m) routes).head? = some r →
        getOp (_build_spec routes).1.paths p m = some (mkOperation r) ∧
        countOp (_build_spec routes).1.paths p m = 1) := by
  constructor
  · intro _
    show _build_spec (sortRoutes routes) = _build_spec routes
    simp only [_build_spec, sortRoutes_idem]
  · intro p m hm r hr
    have hperm := sortRoutes_perm routes
    have hcfs : ∀ x ∈ sortRoutes routes, ':' ∉ x.method.data :=
      fun x hx => hcf x (hperm.mem_iff.mp hx)
    have huniq : filterK (p, m) (dedupRoutes (sortRoutes routes) []) = [r] := by
      rw [filterK_dedup (p, m) hm (sortRoutes routes) [] hcfs,
        if_neg (by simp), filterK_sortRoutes]
      cases hfl : filterK (p, m) routes with
      | nil => rw [hfl] at hr; simp at hr
      | cons a t =>
          rw [hfl] at hr
          simp only [List.head?_cons, Option.some.injEq] at hr
          subst hr
          rfl
    simp only [filterK] at huniq
    have hrf := List.mem_filter.mp (by rw [huniq]; exact List.mem_singleton.mpr rfl)
    have hkey : routeKey r = (p, m) := by simpa using hrf.2
    constructor
    · rw [build_spec_paths, getOp_foldl, huniq]
      rfl
    · rw [build_spec_paths, countOp_foldl p m _ [] pathsWF_nil,
        if_pos ⟨r, hrf.1, hkey⟩]

def rA : Route := ⟨"/a/", "get", "a_op", "first", []⟩

def rA2 : Route := ⟨"/a/", "get", "a_op2", "second", []⟩

def rB : Route := ⟨"/b/", "post", "b_op", "other", []⟩

/-- C5 witness: the theorem applied to concrete lists — idempotence on
a duplicate-free two-route list, and first-wins on a list with an
explicit duplicate `(path, method)` pair. -/
theorem build_spec_C5_witness :
    _build_spec ((_build_spec [rA, rB]).2) = _build_spec [rA, rB] ∧
    getOp (_build_spec [rA, rA2]).1.paths "/a/" "get" = some (mkOperation rA) ∧
    countOp (_build_spec [rA, rA2]).1.paths "/a/" "get" = 1 := by
  refine ⟨(build_spec_C5 [rA, rB] (by decide)).1 (by decide), ?_, ?_⟩
  · exact ((build_spec_C5 [rA, rA2] (by decide)).2 "/a/" "get" (by decide) rA
      (by decide)).1
  · exact ((build_spec_C5 [rA, rA2] (by decide)).2 "/a/" "get" (by decide) rA
      (by decide)).2

/-- C10: `_build_spec` mutates its argument — the caller's list after
the call is exactly the stable sort of the original by
`(path, method)`: a permutation of the original, sorted by key, with
records of equal key kept in their original relative order. -/
theorem build_spec_mutation_C10 (routes : List Route) :
    (_build_spec routes).2 = sortRoutes routes ∧
    List.Perm ((_build_spec routes).2) routes ∧
    ((_build_spec routes).2).Pairwise keyLe ∧
    ∀ k, filterK k ((_build_spec routes).2) = filterK k routes :=
  ⟨rfl, sortRoutes_perm routes, sortRoutes_pairwise routes,
    fun k => filterK_sortRoutes k routes⟩

/-! ### Python AST fragment and the urls.py visitors (djang.py) -/

/-- The Python AST fragment that djang.py's visitors inspect.  `call`
carries the `parent_func` attribute that `DecoratorVisitor` plants on
decorator call nodes (absent on freshly parsed trees). -/
inductive PyExpr : Type where
  | constStr (s : String)
  | constOther
  | name (id : String)
  | attr (value : PyExpr) (attrName : String)
  | call (f : PyExpr) (args : List PyExpr)
      (kwargs : List (Option String × PyExpr)) (parentFunc : Option String)
  | listE (elts : List PyExpr)
  | tupleE (elts : List PyExpr)
  | dictE (entries : List (PyExpr × PyExpr))

/-- Statements of a urls.py module. -/
inductive PyStmt : Type where
  | assign (targets : List PyExpr) (value : PyExpr)
  | augAssign (target : PyExpr) (value : PyExpr)
  | exprStmt (e : PyExpr)
  | functionDef (nm : String) (decorators : List PyExpr) (body : List PyStmt)
  | classDef (nm : String) (bases : List PyExpr) (body : List PyStmt)
  | passStmt

/-- `_str` (djang.py lines 54-59): literal strings only. -/
def _str : PyExpr → Option String
  | PyExpr.constStr s => some s
  | _ => none

/-- `_str_list` (djang.py lines 62-65): the truthy literal strings of a
list or tuple display. -/
def _str_list : PyExpr → List String
  | PyExpr.listE elts | PyExpr.tupleE elts =>
      (elts.filterMap _str).filter (fun s => s ≠ "")
  | _ => []

/-- Python `str.upper` on ASCII. -/
def pyUpper (s : String) : String := ⟨s.data.map Char.toUpper⟩

/-- Python `repr` of a list of plain strings, as used by the f-string
`f"{methods} {raw_path}"` (assumes no quotes inside the strings). -/
def pyReprStrList (l : List String) : String :=
  let quoted := l.map fun s => "\x27" ++ s ++ "\x27"
  let rec joinCS : List String → String
    | [] => ""
    | [x] => x
    | x :: t => x ++ ", " ++ joinCS t
  "[" ++ joinCS quoted ++ "]"

/-- Python `str(x)` for an optional string (`None` prints as "None"). -/
def pyOptStr : Option String → String
  | some s => s
  | none => "None"

/-- Python dict assignment `d[k] = v`: replace in place or append. -/
def dictSet {β : Type} (d : List (String × β)) (k : String) (v : β) :
    List (String × β) :=
  if d.any (fun e => e.1 == k) then d.map (fun e => if e.1 = k then (k, v) else e)
  else d ++ [(k, v)]

/-- Python `d.setdefault(k, v)` (the resulting dict). -/
def dictSetdefault {β : Type} (d : List (String × β)) (k : String) (v : β) :
    List (String × β) :=
  if d.any (fun e => e.1 == k) then d else d ++ [(k, v)]

/-- Python `d.get(k, v0)`. -/
def dictGetD {β : Type} (d : List (String × β)) (k : String) (v0 : β) : β :=
  ((d.find? (fun e => e.1 == k)).map Prod.snd).getD v0

/-- Python `set.add` on a set modelled as a duplicate-free list. -/
def setAdd (s : List String) (x : String) : List String :=
  if x ∈ s then s else s ++ [x]

/-- Python `sorted` on strings (any sort agrees on a list of strings;
insertion sort is used here). -/
def insertStr (x : String) : List String → List String
  | [] => [x]
  | y :: t => if y ≤ x then y :: insertStr x t else x :: y :: t

def sortStrings (l : List String) : List String :=
  l.foldl (fun acc x => insertStr x acc) []

/-- Python `",".join`. -/
def joinComma : List String → String
  | [] => ""
  | [x] => x
  | x :: t => x ++ "," ++ joinComma t

/-- Python `s.rstrip("/")`. -/
def rstripSlash (s : String) : String :=
  ⟨(s.data.reverse.dropWhile (· = '/')).reverse⟩

/-- Python `needle in hay` on strings. -/
def isSubstring (needle hay : String) : Bool :=
  decide (List.IsInfix needle.data hay.data)

/-- `VIEWSET_ACTION_METHODS` (djang.py lines 89-96). -/
def VIEWSET_ACTION_METHODS : List (String × List String) :=
  [("list", ["get"]), ("create", ["post"]), ("retrieve", ["get"]),
   ("update", ["put"]), ("partial_update", ["patch"]), ("destroy", ["delete"])]

/-- `VIEWSET_BASE_ACTIONS` (djang.py lines 99-103), in insertion order. -/
def VIEWSET_BASE_ACTIONS : List (String × List String) :=
  [("ModelViewSet",
     ["list", "create", "retrieve", "update", "partial_update", "destroy"]),
   ("ReadOnlyModelViewSet", ["list", "retrieve"]),
   ("ViewSet", [])]

/-- The mutable state of one `URLVisitor` instance (djang.py lines
110-117); `viewset_info` maps a function name to the stored methods
list (the source wraps it as `{"methods": [...]}`). -/
structure VState where
  pfx : String
  routes : List Route
  includes : List (String × String)
  routers : List String
  router_base : List (String × List String)
  viewset_info : List (String × List String)
  route_patterns : List String

/-- `URLVisitor._add_route` (djang.py lines 315-333). -/
def _add_route (st : VState) (raw_path : String) (methods : List String)
    (op_id : String) (descr : Option String) : VState :=
  let pr := _django_to_openapi raw_path
  let key := pr.1 ++ ":" ++ joinComma (sortStrings methods)
  if key ∈ st.route_patterns then st
  else
    { st with
      route_patterns := st.route_patterns ++ [key],
      routes := st.routes ++ methods.map fun m =>
        { path := pr.1, method := m,
          operation_id := if m ≠ "get" then op_id ++ "_" ++ m else op_id,
          description :=
            match descr with
            | some d => if d ≠ "" then d else pyUpper m ++ " " ++ raw_path
            | none => pyUpper m ++ " " ++ raw_path,
          parameters := pr.2 } }

/-- `URLVisitor._store_api_view_methods` (djang.py lines 225-226). -/
def _store_api_view_methods (st : VState) (fn : String)
    (methods : List String) : VState :=
  { st with viewset_info := dictSet st.viewset_info fn (methods.map pyLower) }

/-- `router.register(...)` handling inside `URLVisitor.visit_Call`
(djang.py lines 152-204). -/
def handleRegister (st : VState) (rv : String) (args : List PyExpr)
    (kwargs : List (Option String × PyExpr)) : VState :=
  match args with
  | a0 :: a1 :: _ =>
    let registered := _str a0
    let viewset_class : Option String :=
      match a1 with
      | PyExpr.name id => some id
      | PyExpr.attr _ a => some a
      | _ => none
    let basename : Option String := kwargs.foldl (fun acc kw =>
        match kw.1, _str kw.2 with
        | some "basename", some s => if s ≠ "" then some s else acc
        | _, _ => acc) none
    match registered with
    | none => st
    | some regPfx =>
      let actions0 : List String :=
        match viewset_class with
        | none => []
        | some vc =>
          if vc = "" then []
          else VIEWSET_BASE_ACTIONS.foldl (fun acc be =>
            if isSubstring be.1 vc || endsWithS vc "ViewSet" then acc ++ be.2
            else acc) []
      let actions := if actions0 = [] then ["list", "retrieve"] else actions0
      let opbase : String :=
        match viewset_class with
        | some vc =>
          if vc ≠ "" then vc
          else match basename with
               | some b => if b ≠ "" then b else "viewset"
               | none => "viewset"
        | none =>
          match basename with
          | some b => if b ≠ "" then b else "viewset"
          | none => "viewset"
      let bases := dictGetD st.router_base rv [""]
      bases.foldl (fun st base =>
        let list_path := st.pfx ++ base ++ rstripSlash regPfx ++ "/"
        let st := (actions.filter (fun a =>
            decide (a ∈ (["list", "create"] : List String)))).foldl
          (fun st action =>
            _add_route st list_path
              (dictGetD VIEWSET_ACTION_METHODS action ["get"])
              (opbase ++ "_" ++ action) (some (action ++ " " ++ regPfx))) st
        let detail_path := list_path ++ "\x7bid\x7d/"
        (actions.filter (fun a =>
            decide (a ∈ (["retrieve", "update", "partial_update", "destroy"]
              : List String)))).foldl
          (fun st action =>
            _add_route st detail_path
              (dictGetD VIEWSET_ACTION_METHODS action ["get"])
              (opbase ++ "_" ++ action) (some (action ++ " " ++ regPfx))) st) st
  | _ => st

/-- `router_base.setdefault(var, [""]).append(raw_path)` (djang.py line 268). -/
def routerBaseAppend (d : List (String × List String)) (k : String)
    (v : String) : List (String × List String) :=
  (dictSetdefault d k [""]).map fun e => if e.1 = k then (e.1, e.2 ++ [v]) else e

/-- `URLVisitor._handle_pattern_call` (djang.py lines 229-312). -/
def _handle_pattern_call (st : VState) (node : PyExpr) : VState :=
  match node with
  | PyExpr.call f args kwargs _ =>
    let func_name :=
      match f with
      | PyExpr.name id => id
      | PyExpr.attr _ a => a
      | _ => ""
    if func_name ≠ "path" ∧ func_name ≠ "re_path" then st
    else
      match args with
      | [] => st
      | a0 :: restArgs =>
        match _str a0 with
        | none => st
        | some raw_path =>
          let full_raw := st.pfx ++ raw_path
          match restArgs.head? with
          | some (PyExpr.call (PyExpr.name "include") incArgs _ _) =>
            (match incArgs.head? with
             | some ia =>
               match _str ia with
               | some mod => { st with includes := st.includes ++ [(mod, full_raw)] }
               | none =>
                 match ia with
                 | PyExpr.attr (PyExpr.name rv) "urls" =>
                   if rv ∈ st.routers then
                     { st with router_base := routerBaseAppend st.router_base rv raw_path }
                   else st
                 | _ => st
             | none => st)
          | _ =>
            let view_arg := restArgs.head?
            let view_name : Option String :=
              match view_arg with
              | some (PyExpr.name id) => some id
              | some (PyExpr.attr _ a) => some a
              | _ => none
            let name_kw := kwargs.find? (fun kw => kw.1 == some "name")
            let op_id1 : Option String :=
              match name_kw with
              | some kw => _str kw.2
              | none => some ("op_" ++ toString st.routes.length)
            let op_id : Option String :=
              match view_name with
              | some vn => if vn ≠ "" then some vn else op_id1
              | none => op_id1
            let methods0 : List String :=
              match view_name with
              | some vn =>
                if vn ≠ "" then
                  match List.lookup vn st.viewset_info with
                  | some ms => ms
                  | none => []
                else []
              | none => []
            let methods1 : List String :=
              match view_arg with
              | some (PyExpr.call (PyExpr.attr _ "as_view") vargs vkwargs _) =>
                let m2 :=
                  match vkwargs.find? (fun kw => kw.1 == some "http_method_names") with
                  | some kw => _str_list kw.2
                  | none => methods0
                match vargs.find? (fun a =>
                    match a with | PyExpr.dictE _ => true | _ => false) with
                | some (PyExpr.dictE entries) =>
                  match entries with
                  | [] => m2
                  | _ :: _ =>
                    m2 ++ entries.filterMap (fun kv =>
                      match _str kv.1 with
                      | some s => if s ≠ "" then some (pyLower s) else none
                      | none => none)
                | _ => m2
              | _ => methods0
            let methods : List String :=
              if methods1 = [] then
                match kwargs.find? (fun kw => kw.1 == some "methods") with
                | some kw => (_str_list kw.2).map pyLower
                | none => ["get"]
              else methods1
            _add_route st full_raw methods (pyOptStr op_id)
              (some (pyReprStrList methods ++ " " ++ raw_path))
  | _ => st

/-- `URLVisitor._consume_iterable` (djang.py lines 218-222). -/
def _consume_iterable (st : VState) (node : PyExpr) : VState :=
  match node with
  | PyExpr.listE elts | PyExpr.tupleE elts => elts.foldl _handle_pattern_call st
  | _ => st

/-! Generic traversal of `ast.NodeVisitor`: `visit_Assign`,
`visit_AugAssign` and `visit_Call` run their custom logic and then
`generic_visit` descends into the children in AST field order. -/

/-- The `urlpatterns.extend([...])` branch of `visit_Call` (djang.py
lines 143-150). -/
def extendBranch (st : VState) (f : PyExpr) (args : List PyExpr) : VState :=
  match f, args with
  | PyExpr.attr (PyExpr.name "urlpatterns") "extend", a0 :: _ =>
    _consume_iterable st a0
  | _, _ => st

/-- The `router.register(...)` branch of `visit_Call` (djang.py lines
152-204). -/
def registerBranch (st : VState) (f : PyExpr) (args : List PyExpr)
    (kwargs : List (Option String × PyExpr)) : VState :=
  match f with
  | PyExpr.attr (PyExpr.name rv) "register" =>
    if rv ∈ st.routers then handleRegister st rv args kwargs else st
  | _ => st

/-- The `api_view(...)` branch of `visit_Call` (djang.py lines
207-213). -/
def apiViewBranch (st : VState) (f : PyExpr) (args : List PyExpr)
    (pf : Option String) : VState :=
  match f, args with
  | PyExpr.name "api_view", a0 :: _ =>
    (match pf with
     | some fn => _store_api_view_methods st fn (_str_list a0)
     | none => st)
  | _, _ => st

mutual
/-- `URLVisitor.visit_Call` (djang.py lines 141-215) plus generic
descent into the call's children. -/
def visitExpr (st : VState) : PyExpr → VState
  | PyExpr.call f args kwargs pf =>
    let st := extendBranch st f args
    let st := registerBranch st f args kwargs
    let st := apiViewBranch st f args pf
    let st := visitExpr st f
    let st := visitExprs st args
    visitKwargs st kwargs
  | PyExpr.attr v _ => visitExpr st v
  | PyExpr.listE elts => visitExprs st elts
  | PyExpr.tupleE elts => visitExprs st elts
  | PyExpr.dictE entries =>
    let st := visitDictKeys st entries
    visitDictVals st entries
  | _ => st

def visitExprs (st : VState) : List PyExpr → VState
  | [] => st
  | e :: rest => visitExprs (visitExpr st e) rest

def visitKwargs (st : VState) : List (Option String × PyExpr) → VState
  | [] => st
  | kw :: rest => visitKwargs (visitExpr st kw.2) rest

def visitDictKeys (st : VState) : List (PyExpr × PyExpr) → VState
  | [] => st
  | kv :: rest => visitDictKeys (visitExpr st kv.1) rest

def visitDictVals (st : VState) : List (PyExpr × PyExpr) → VState
  | [] => st
  | kv :: rest => visitDictVals (visitExpr st kv.2) rest
end

/-! `URLVisitor.visit_Assign` / `visit_AugAssign` (djang.py lines
120-138) and generic traversal of the remaining statement forms. -/

/-- The router-instantiation detection of `visit_Assign` (djang.py
lines 121-127). -/
def routerAssignBranch (st : VState) (targets : List PyExpr)
    (value : PyExpr) : VState :=
  match value with
  | PyExpr.call (PyExpr.name fid) _ _ _ =>
    if endsWithS fid "Router" then
      targets.foldl (fun st t =>
        match t with
        | PyExpr.name tid =>
          { st with routers := setAdd st.routers tid,
                    router_base := dictSetdefault st.router_base tid [""] }
        | _ => st) st
    else st
  | _ => st

/-- The `urlpatterns += [...]` handling of `visit_AugAssign` (djang.py
lines 134-138). -/
def augBranch (st : VState) (target value : PyExpr) : VState :=
  match target with
  | PyExpr.name "urlpatterns" => _consume_iterable st value
  | _ => st

/-- The `urlpatterns = [...]` detection of `visit_Assign` (djang.py
lines 129-131). -/
def urlpatternsBranch (st : VState) (targets : List PyExpr)
    (value : PyExpr) : VState :=
  if targets.any (fun t =>
      match t with
      | PyExpr.name id => id == "urlpatterns"
      | _ => false)
  then _consume_iterable st value else st

mutual
def visitStmt (st : VState) : PyStmt → VState
  | PyStmt.assign targets value =>
    let st := routerAssignBranch st targets value
    let st := urlpatternsBranch st targets value
    let st := visitExprs st targets
    visitExpr st value
  | PyStmt.augAssign target value =>
    let st := augBranch st target value
    let st := visitExpr st target
    visitExpr st value
  | PyStmt.exprStmt e => visitExpr st e
  | PyStmt.functionDef _ decorators body =>
    let st := visitStmts st body
    visitExprs st decorators
  | PyStmt.classDef _ bases body =>
    let st := visitExprs st bases
    visitStmts st body
  | PyStmt.passStmt => st

def visitStmts (st : VState) : List PyStmt → VState
  | [] => st
  | s :: rest => visitStmts (visitStmt st s) rest
end

mutual
/-- `DecoratorVisitor.visit_FunctionDef` (djang.py lines 343-352):
collect `@api_view` verb lists and plant `parent_func` on every call
decorator whose function is a plain name, recursing into nested
definitions.  Returns the collected map and the mutated tree. -/
def decorStmt (acc : List (String × List String)) :
    PyStmt → List (String × List String) × PyStmt
  | PyStmt.functionDef nm decorators body =>
    let acc := decorators.foldl (fun acc d =>
      match d with
      | PyExpr.call (PyExpr.name "api_view") (a0 :: _) _ _ =>
        let methods := _str_list a0
        (match methods with
         | [] => acc
         | _ :: _ => dictSet acc nm (methods.map pyLower))
      | _ => acc) acc
    let decorators2 := decorators.map fun d =>
      match d with
      | PyExpr.call (PyExpr.name fid) dargs dkwargs _ =>
        PyExpr.call (PyExpr.name fid) dargs dkwargs (some nm)
      | other => other
    let pr := decorBody acc body
    (pr.1, PyStmt.functionDef nm decorators2 pr.2)
  | PyStmt.classDef nm bases body =>
    let pr := decorBody acc body
    (pr.1, PyStmt.classDef nm bases pr.2)
  | s => (acc, s)

def decorBody (acc : List (String × List String)) :
    List PyStmt → List (String × List String) × List PyStmt
  | [] => (acc, [])
  | s :: rest =>
    let pr1 := decorStmt acc s
    let pr2 := decorBody pr1.1 rest
    (pr2.1, pr1.2 :: pr2.2)
end

/-- The per-file visitor pipeline of `_walk` (djang.py lines 481-497):
run `DecoratorVisitor`, seed a fresh `URLVisitor` with the collected
`@api_view` methods, and visit the (mutated) tree.  The
`ViewSetVisitor` results are collected by the source but never used
afterwards, so they are omitted. -/
def runVisitors (stmts : List PyStmt) (pfx : String) : VState :=
  let pr := decorBody [] stmts
  let st0 : VState := ⟨pfx, [], [], [], [], [], []⟩
  let st := pr.1.foldl (fun st e => _store_api_view_methods st e.1 e.2) st0
  visitStmts st pr.2

/-! ### The recursive walk driver `_walk` (djang.py lines 464-506) -/

/-- A source file as the walk sees it: `none` models a file whose read
or `ast.parse` raises (the `except` branch of `_walk`). -/
structure PyFile where
  parseResult : Option (List PyStmt)

/-- The project filesystem: canonical file paths with their parse
results, and the module resolver `_file_from_module` abstracted as a
function from dotted module names to file paths (its concrete effect
trace is modelled separately for C2). -/
structure FS where
  files : List (String × PyFile)
  resolveMod : String → Option String

/-- Diagnostic messages printed by `_walk`. -/
inductive Diag where
  | parseFail (path : String)
  | unresolvedModule (mod : String)
deriving DecidableEq, Repr

/-- Work-queue entries: the root call carries a file path, recursive
calls carry the include's module reference plus accumulated prefix. -/
inductive QEntry where
  | fileE (path : String) (pfx : String)
  | modE (mod : String) (pfx : String)
deriving DecidableEq, Repr

def qResolve (fs : FS) : QEntry → Sum String (String × String)
  | QEntry.fileE f p => Sum.inr (f, p)
  | QEntry.modE mod p =>
    match fs.resolveMod mod with
    | some f => Sum.inr (f, p)
    | none => Sum.inl mod

/-- Embedding of `_walk` (djang.py lines 464-506), processing a work
queue depth-first: skip visited or missing files, mark a file visited
before following its includes, report parse failures and unresolved
modules, and accumulate the flattened route list.  The shared mutable
`seen` set threads through sibling walks exactly as in the source.
Fuel only bounds the recursion depth: every unvisited file strictly
shrinks the unvisited set, so sufficient fuel exists for every input
(made precise by `walkF_stable` below). -/
def walkF (fs : FS) : Nat → List QEntry → List String →
    List Route × List String × List Diag
  | 0, _, seen => ([], seen, [])
  | _ + 1, [], seen => ([], seen, [])
  | n + 1, q :: rest, seen =>
    match qResolve fs q with
    | Sum.inl mod =>
      let pr := walkF fs n rest seen
      (pr.1, pr.2.1, Diag.unresolvedModule mod :: pr.2.2)
    | Sum.inr (f, p) =>
      if f ∈ seen then walkF fs n rest seen
      else
        match List.lookup f fs.files with
        | none => walkF fs n rest seen
        | some fl =>
          let seen1 := seen ++ [f]
          match fl.parseResult with
          | none =>
            let pr := walkF fs n rest seen1
            (pr.1, pr.2.1, Diag.parseFail f :: pr.2.2)
          | some stmts =>
            let st := runVisitors stmts p
            let pr1 := walkF fs n
              (st.includes.map fun inc => QEntry.modE inc.1 inc.2) seen1
            let pr2 := walkF fs n rest pr1.2.1
            (st.routes ++ pr1.1 ++ pr2.1, pr2.2.1, pr1.2.2 ++ pr2.2.2)

/-- Top-level `_walk(entry_path, project_root)` on a root file. -/
def _walk (fs : FS) (entry : String) (pfx : String) (fuel : Nat) :
    List Route × List String × List Diag :=
  walkF fs fuel [QEntry.fileE entry pfx] []

/-! ### C1: router registration recorded before the router is included -/

/-- The failing input of C1: the canonical urls.py layout
`router = DefaultRouter()`, `router.register("tasks", TaskViewSet)`,
`urlpatterns = [path("api/", include(router.urls))]` — the
registration is recorded textually before the router is included. -/
def tasksUrlsPy : List PyStmt :=
  [PyStmt.assign [PyExpr.name "router"]
     (PyExpr.call (PyExpr.name "DefaultRouter") [] [] none),
   PyStmt.exprStmt (PyExpr.call
     (PyExpr.attr (PyExpr.name "router") "register")
     [PyExpr.constStr "tasks", PyExpr.name "TaskViewSet"] [] none),
   PyStmt.assign [PyExpr.name "urlpatterns"]
     (PyExpr.listE [PyExpr.call (PyExpr.name "path")
       [PyExpr.constStr "api/",
        PyExpr.call (PyExpr.name "include")
          [PyExpr.attr (PyExpr.name "router") "urls"] [] none] [] none])]

def fsC1 : FS := ⟨[("urls.py", ⟨some tasksUrlsPy⟩)], fun _ => none⟩

/-- C1 evaluation at the failing input: when `router.register` is
visited, the router's base-prefix list is still `[""]` (the `api/`
entry is appended only later, when the `urlpatterns` assignment is
visited), so all six generated operations live under `/tasks/` and
`/tasks/{id}/` — none under `/api/...` as the claim (and the module
docstring) promise. -/
theorem register_before_include_C1 :
    ((walkF fsC1 2 [QEntry.fileE "urls.py" ""] []).1.map fun r => (r.path, r.method))
      = [("/tasks/", "get"), ("/tasks/", "post"),
         ("/tasks/\x7bid\x7d/", "get"), ("/tasks/\x7bid\x7d/", "put"),
         ("/tasks/\x7bid\x7d/", "patch"), ("/tasks/\x7bid\x7d/", "delete")] ∧
    (∀ r ∈ (walkF fsC1 2 [QEntry.fileE "urls.py" ""] []).1,
      r.path ≠ "/api/tasks/" ∧ r.path ≠ "/api/tasks/\x7bid\x7d/") := by
  decide

/-! ### C9: parse failures are non-fatal -/

/-- C9: a file whose source fails to parse contributes zero routes, is
reported to diagnostic output, and the walk continues with the
remaining queue — the failing file is still marked visited first, and
no exception escapes (the embedded walk is a total function). -/
theorem parse_failure_C9 (fs : FS) (f p : String) (rest : List QEntry)
    (seen : List String) (n : Nat) (fl : PyFile)
    (hseen : f ∉ seen) (hlook : List.lookup f fs.files = some fl)
    (hparse : fl.parseResult = none) :
    walkF fs (n + 1) (QEntry.fileE f p :: rest) seen
      = ((walkF fs n rest (seen ++ [f])).1,
         (walkF fs n rest (seen ++ [f])).2.1,
         Diag.parseFail f :: (walkF fs n rest (seen ++ [f])).2.2) := by
  simp only [walkF, qResolve]
  rw [if_neg hseen, hlook]
  simp only [hparse]

def fsC9 : FS :=
  ⟨[("bad.py", ⟨none⟩),
    ("good.py", ⟨some [PyStmt.assign [PyExpr.name "urlpatterns"]
      (PyExpr.listE [PyExpr.call (PyExpr.name "path")
        [PyExpr.constStr "ping/", PyExpr.name "ping"] [] none])]⟩)],
   fun _ => none⟩

/-- C9 witness: the theorem applied to a concrete run where the first
queued file is unparsable and a second file follows; the run reports
the failure, emits no routes for the bad file, and still extracts the
good file's route. -/
theorem parse_failure_C9_witness :
    walkF fsC9 3 (QEntry.fileE "bad.py" "" :: [QEntry.fileE "good.py" ""]) []
      = ((walkF fsC9 2 [QEntry.fileE "good.py" ""] ["bad.py"]).1,
         (walkF fsC9 2 [QEntry.fileE "good.py" ""] ["bad.py"]).2.1,
         Diag.parseFail "bad.py"
           :: (walkF fsC9 2 [QEntry.fileE "good.py" ""] ["bad.py"]).2.2) ∧
    walkF fsC9 3 (QEntry.fileE "bad.py" "" :: [QEntry.fileE "good.py" ""]) []
      = ([{ path := "/ping/", method := "get", operation_id := "ping",
            description := "[\x27get\x27] ping/", parameters := [] }],
         ["bad.py", "good.py"], [Diag.parseFail "bad.py"]) := by
  constructor
  · exact parse_failure_C9 fsC9 "bad.py" "" [QEntry.fileE "good.py" ""] [] 2
      ⟨none⟩ (by simp) rfl rfl
  · decide

/-! ### C7: decorator-restricted verbs override the default GET -/

theorem empty_append_str (p : String) : "" ++ p = p :=
  String.ext (by simp [String.data_append])

/-- A urls.py declaring a handler `fn` decorated with
`@api_view(["get", "post"])` and a plain `path(p, fn)` route with no
`methods=` keyword. -/
def apiViewFile (fn p : String) : List PyStmt :=
  [PyStmt.functionDef fn
     [PyExpr.call (PyExpr.name "api_view")
       [PyExpr.listE [PyExpr.constStr "get", PyExpr.constStr "post"]] [] none] [],
   PyStmt.assign [PyExpr.name "urlpatterns"]
     (PyExpr.listE [PyExpr.call (PyExpr.name "path")
       [PyExpr.constStr p, PyExpr.name fn] [] none])]

def fsC7 (fn p : String) : FS :=
  ⟨[("urls.py", ⟨some (apiViewFile fn p)⟩)], fun _ => none⟩

/-- C7: for every handler name (Python identifiers are nonempty) and
every literal path string, the walk over such a file emits exactly two
operations — GET and POST in decorator order — at that path, not one
default GET. -/
theorem api_view_two_methods_C7 (fn p : String) (hf : fn ≠ "") :
    ((walkF (fsC7 fn p) 2 [QEntry.fileE "urls.py" ""] []).1.map fun r => r.method)
      = ["get", "post"] ∧
    ∀ r ∈ (walkF (fsC7 fn p) 2 [QEntry.fileE "urls.py" ""] []).1,
      r.path = (_django_to_openapi p).1 := by
  have hincs : (runVisitors (apiViewFile fn p) "").includes = [] := by
    simp [runVisitors, apiViewFile, decorBody, decorStmt, dictSet,
      visitStmts, visitStmt, visitExpr, visitExprs, visitKwargs,
      extendBranch, registerBranch, apiViewBranch, routerAssignBranch,
      urlpatternsBranch, augBranch,
      _consume_iterable, _handle_pattern_call, _store_api_view_methods,
      _add_route, _str, _str_list, pyLower, hf, List.lookup,
      sortStrings, insertStr, joinComma, setAdd, dictSetdefault, dictGetD,
      empty_append_str]
  have hw : walkF (fsC7 fn p) 2 [QEntry.fileE "urls.py" ""] []
      = ((runVisitors (apiViewFile fn p) "").routes, ["urls.py"], []) := by
    show walkF (fsC7 fn p) (1 + 1) [QEntry.fileE "urls.py" ""] [] = _
    simp only [walkF, qResolve]
    rw [if_neg (by simp)]
    have hlook : List.lookup "urls.py" (fsC7 fn p).files
        = some ⟨some (apiViewFile fn p)⟩ := by
      simp [fsC7, List.lookup]
    rw [hlook]
    simp only [hincs, List.map_nil]
    simp [walkF]
  rw [hw]
  constructor
  · simp [runVisitors, apiViewFile, decorBody, decorStmt, dictSet,
      visitStmts, visitStmt, visitExpr, visitExprs, visitKwargs,
      extendBranch, registerBranch, apiViewBranch, routerAssignBranch,
      urlpatternsBranch, augBranch,
      _consume_iterable, _handle_pattern_call, _store_api_view_methods,
      _add_route, _str, _str_list, pyLower, hf, List.lookup,
      sortStrings, insertStr, joinComma, setAdd, dictSetdefault, dictGetD,
      empty_append_str]
  · intro r hr
    simp [runVisitors, apiViewFile, decorBody, decorStmt, dictSet,
      visitStmts, visitStmt, visitExpr, visitExprs, visitKwargs,
      extendBranch, registerBranch, apiViewBranch, routerAssignBranch,
      urlpatternsBranch, augBranch,
      _consume_iterable, _handle_pattern_call, _store_api_view_methods,
      _add_route, _str, _str_list, pyLower, hf, List.lookup,
      sortStrings, insertStr, joinComma, setAdd, dictSetdefault, dictGetD,
      empty_append_str] at hr
    rcases hr with rfl | rfl <;> simp

/-- C7 witness: the theorem applied at the concrete handler name
"ping" and path "items/". -/
theorem api_view_two_methods_C7_witness :
    ("ping" : String) ≠ "" ∧
    ((walkF (fsC7 "ping" "items/") 2 [QEntry.fileE "urls.py" ""] []).1.map
        fun r => r.method) = ["get", "post"] :=
  ⟨by decide, (api_view_two_methods_C7 "ping" "items/" (by decide)).1⟩


/-! ### C6: termination of the recursive walk

The walk's fuel is an artifact of the embedding; the theorems below
give a computable fuel bound after which the result never changes
(the embedded recursion has stabilized), which is the shallow
statement of termination.  The key quantity is an upper bound on how
many include references one file can emit. -/

mutual
def sizeE : PyExpr → Nat
  | PyExpr.constStr _ => 1
  | PyExpr.constOther => 1
  | PyExpr.name _ => 1
  | PyExpr.attr v _ => 1 + 2 * sizeE v
  | PyExpr.call f args kwargs _ =>
      1 + 2 * sizeE f + 2 * sizeEs args + 2 * sizeKw kwargs
  | PyExpr.listE elts => 1 + 2 * sizeEs elts
  | PyExpr.tupleE elts => 1 + 2 * sizeEs elts
  | PyExpr.dictE entries => 1 + 2 * sizeEntries entries

def sizeEs : List PyExpr → Nat
  | [] => 0
  | e :: rest => sizeE e + sizeEs rest

def sizeKw : List (Option String × PyExpr) → Nat
  | [] => 0
  | kw :: rest => sizeE kw.2 + sizeKw rest

def sizeEntries : List (PyExpr × PyExpr) → Nat
  | [] => 0
  | kv :: rest => sizeE kv.1 + sizeE kv.2 + sizeEntries rest
end

mutual
def sizeS : PyStmt → Nat
  | PyStmt.assign targets value => 1 + 2 * sizeEs targets + 2 * sizeE value
  | PyStmt.augAssign target value => 1 + 2 * sizeE target + 2 * sizeE value
  | PyStmt.exprStmt e => 1 + 2 * sizeE e
  | PyStmt.functionDef _ decorators body =>
      1 + 2 * sizeEs decorators + 2 * sizeSs body
  | PyStmt.classDef _ bases body => 1 + 2 * sizeEs bases + 2 * sizeSs body
  | PyStmt.passStmt => 1

def sizeSs : List PyStmt → Nat
  | [] => 0
  | s :: rest => sizeS s + sizeSs rest
end

theorem sizeE_pos (e : PyExpr) : 1 ≤ sizeE e := by
  cases e <;> simp only [sizeE] <;> omega

theorem length_le_sizeEs (l : List PyExpr) : l.length ≤ sizeEs l := by
  induction l with
  | nil => simp [sizeEs]
  | cons a t ih =>
      have := sizeE_pos a
      simp only [List.length_cons, sizeEs]
      omega

theorem _add_route_includes (st : VState) (a : String) (b : List String)
    (c : String) (d : Option String) :
    (_add_route st a b c d).includes = st.includes := by
  simp only [_add_route]
  split <;> rfl

theorem foldl_includes_eq {α : Type} (f : VState → α → VState)
    (h : ∀ st x, (f st x).includes = st.includes) :
    ∀ (l : List α) (st : VState), (l.foldl f st).includes = st.includes := by
  intro l
  induction l with
  | nil => intro st; rfl
  | cons a t ih => intro st; rw [List.foldl_cons, ih, h]

theorem handleRegister_includes (st : VState) (rv : String)
    (args : List PyExpr) (kwargs : List (Option String × PyExpr)) :
    (handleRegister st rv args kwargs).includes = st.includes := by
  unfold handleRegister
  split
  next a0 a1 rest =>
    cases h : _str a0 with
    | none => simp only [h]
    | some regPfx =>
        simp only [h]
        exact foldl_includes_eq _
          (fun st2 base =>
            (foldl_includes_eq _ (fun s a => _add_route_includes ..) _ _).trans
            (foldl_includes_eq _ (fun s a => _add_route_includes ..) _ _)) _ _
  next => rfl

theorem _store_includes (st : VState) (fn : String) (ms : List String) :
    (_store_api_view_methods st fn ms).includes = st.includes := rfl

theorem _handle_pattern_call_includes (st : VState) (node : PyExpr) :
    (_handle_pattern_call st node).includes.length
      ≤ st.includes.length + 1 := by
  cases node
  case call f args kwargs pf =>
    simp only [_handle_pattern_call]
    repeat' split
    all_goals try simp only [_add_route_includes]
    all_goals try simp only [List.length_append, List.length_cons,
      List.length_nil]
    all_goals omega
  all_goals simp only [_handle_pattern_call]
  all_goals omega

theorem foldl_hpc_includes (elts : List PyExpr) (st : VState) :
    (elts.foldl _handle_pattern_call st).includes.length
      ≤ st.includes.length + elts.length := by
  induction elts generalizing st with
  | nil => simp
  | cons e t ih =>
      rw [List.foldl_cons]
      have h1 := _handle_pattern_call_includes st e
      have h2 := ih (_handle_pattern_call st e)
      simp only [List.length_cons]
      omega

theorem _consume_iterable_includes (st : VState) (node : PyExpr) :
    (_consume_iterable st node).includes.length
      ≤ st.includes.length + sizeE node := by
  cases node
  case listE elts =>
    have := foldl_hpc_includes elts st
    have := length_le_sizeEs elts
    simp only [_consume_iterable, sizeE]
    omega
  case tupleE elts =>
    have := foldl_hpc_includes elts st
    have := length_le_sizeEs elts
    simp only [_consume_iterable, sizeE]
    omega
  all_goals simp only [_consume_iterable, sizeE]
  all_goals omega

theorem sizeS_pos (s : PyStmt) : 1 ≤ sizeS s := by
  cases s <;> simp only [sizeS] <;> omega

theorem extendBranch_includes (st : VState) (f : PyExpr)
    (args : List PyExpr) :
    (extendBranch st f args).includes.length
      ≤ st.includes.length + sizeEs args := by
  simp only [extendBranch]
  split
  next a0 rest =>
    have := _consume_iterable_includes st a0
    simp only [sizeEs]
    omega
  next => omega

theorem registerBranch_includes (st : VState) (f : PyExpr)
    (args : List PyExpr) (kwargs : List (Option String × PyExpr)) :
    (registerBranch st f args kwargs).includes = st.includes := by
  simp only [registerBranch]
  split
  · split
    · exact handleRegister_includes ..
    · rfl
  · rfl

theorem apiViewBranch_includes (st : VState) (f : PyExpr)
    (args : List PyExpr) (pf : Option String) :
    (apiViewBranch st f args pf).includes = st.includes := by
  simp only [apiViewBranch]
  split
  · split <;> rfl
  · rfl

theorem routerAssignBranch_includes (st : VState) (targets : List PyExpr)
    (value : PyExpr) :
    (routerAssignBranch st targets value).includes = st.includes := by
  simp only [routerAssignBranch]
  split
  · split
    · exact foldl_includes_eq _ (fun s t => by cases t <;> rfl) _ _
    · rfl
  · rfl

theorem urlpatternsBranch_includes (st : VState) (targets : List PyExpr)
    (value : PyExpr) :
    (urlpatternsBranch st targets value).includes.length
      ≤ st.includes.length + sizeE value := by
  simp only [urlpatternsBranch]
  split
  · exact _consume_iterable_includes st value
  · omega

theorem augBranch_includes (st : VState) (target value : PyExpr) :
    (augBranch st target value).includes.length
      ≤ st.includes.length + sizeE value := by
  simp only [augBranch]
  split
  · exact _consume_iterable_includes st value
  · omega

/-- The simultaneous include-growth bound for the mutually recursive
visitor functions, indexed by the size of the visited node. -/
def VisitBound (N : Nat) : Prop :=
  (∀ (st : VState) (e : PyExpr), sizeE e ≤ N →
    (visitExpr st e).includes.length ≤ st.includes.length + sizeE e) ∧
  (∀ (st : VState) (l : List PyExpr), sizeEs l ≤ N →
    (visitExprs st l).includes.length ≤ st.includes.length + sizeEs l) ∧
  (∀ (st : VState) (l : List (Option String × PyExpr)), sizeKw l ≤ N →
    (visitKwargs st l).includes.length ≤ st.includes.length + sizeKw l) ∧
  (∀ (st : VState) (l : List (PyExpr × PyExpr)), sizeEntries l ≤ N →
    (visitDictKeys st l).includes.length
      ≤ st.includes.length + sizeEntries l) ∧
  (∀ (st : VState) (l : List (PyExpr × PyExpr)), sizeEntries l ≤ N →
    (visitDictVals st l).includes.length
      ≤ st.includes.length + sizeEntries l) ∧
  (∀ (st : VState) (s : PyStmt), sizeS s ≤ N →
    (visitStmt st s).includes.length ≤ st.includes.length + sizeS s) ∧
  (∀ (st : VState) (l : List PyStmt), sizeSs l ≤ N →
    (visitStmts st l).includes.length ≤ st.includes.length + sizeSs l)

theorem visitBound_all : ∀ N, VisitBound N := by
  intro N
  induction N using Nat.strong_induction_on with
  | _ N ih =>
  have hE : ∀ (st : VState) (e : PyExpr), sizeE e ≤ N →
      (visitExpr st e).includes.length ≤ st.includes.length + sizeE e := by
    intro st e hsz
    cases e with
    | constStr s => simp only [visitExpr, sizeE]; omega
    | constOther => simp only [visitExpr, sizeE]; omega
    | name id => simp only [visitExpr, sizeE]; omega
    | attr v a =>
        have hsz2 : 1 + 2 * sizeE v ≤ N := by
          simpa only [sizeE] using hsz
        have hv : sizeE v < N := by have := sizeE_pos v; omega
        have h1 := (ih _ hv).1 st v (le_refl _)
        simp only [visitExpr, sizeE]
        omega
    | call f args kwargs pf =>
        have hsz2 : 1 + 2 * sizeE f + 2 * sizeEs args + 2 * sizeKw kwargs
            ≤ N := by simpa only [sizeE] using hsz
        have hf : sizeE f < N := by have := sizeE_pos f; omega
        have ha : sizeEs args < N := by omega
        have hk : sizeKw kwargs < N := by omega
        have h1 := extendBranch_includes st f args
        have h2 := congrArg List.length (registerBranch_includes
          (extendBranch st f args) f args kwargs)
        have h3 := congrArg List.length (apiViewBranch_includes
          (registerBranch (extendBranch st f args) f args kwargs) f args pf)
        have h4 := (ih _ hf).1
          (apiViewBranch (registerBranch (extendBranch st f args) f args
            kwargs) f args pf) f (le_refl _)
        have h5 := (ih _ ha).2.1
          (visitExpr (apiViewBranch (registerBranch (extendBranch st f args)
            f args kwargs) f args pf) f) args (le_refl _)
        have h6 := (ih _ hk).2.2.1
          (visitExprs (visitExpr (apiViewBranch (registerBranch
            (extendBranch st f args) f args kwargs) f args pf) f) args)
          kwargs (le_refl _)
        simp only [visitExpr, sizeE]
        omega
    | listE elts =>
        have hsz2 : 1 + 2 * sizeEs elts ≤ N := by
          simpa only [sizeE] using hsz
        have hl : sizeEs elts < N := by omega
        have h1 := (ih _ hl).2.1 st elts (le_refl _)
        simp only [visitExpr, sizeE]
        omega
    | tupleE elts =>
        have hsz2 : 1 + 2 * sizeEs elts ≤ N := by
          simpa only [sizeE] using hsz
        have hl : sizeEs elts < N := by omega
        have h1 := (ih _ hl).2.1 st elts (le_refl _)
        simp only [visitExpr, sizeE]
        omega
    | dictE entries =>
        have hsz2 : 1 + 2 * sizeEntries entries ≤ N := by
          simpa only [sizeE] using hsz
        have hl : sizeEntries entries < N := by omega
        have h1 := (ih _ hl).2.2.2.1 st entries (le_refl _)
        have h2 := (ih _ hl).2.2.2.2.1 (visitDictKeys st entries)
          entries (le_refl _)
        simp only [visitExpr, sizeE]
        omega
  have hEs : ∀ (st : VState) (l : List PyExpr), sizeEs l ≤ N →
      (visitExprs st l).includes.length ≤ st.includes.length + sizeEs l := by
    intro st l hsz
    cases l with
    | nil => simp only [visitExprs, sizeEs]; omega
    | cons e rest =>
        have hsz2 : sizeE e + sizeEs rest ≤ N := by
          simpa only [sizeEs] using hsz
        have h1 := hE st e (by omega)
        have hr : sizeEs rest < N := by have := sizeE_pos e; omega
        have h2 := (ih _ hr).2.1 (visitExpr st e) rest (le_refl _)
        simp only [visitExprs, sizeEs]
        omega
  have hKw : ∀ (st : VState) (l : List (Option String × PyExpr)),
      sizeKw l ≤ N →
      (visitKwargs st l).includes.length ≤ st.includes.length + sizeKw l := by
    intro st l hsz
    cases l with
    | nil => simp only [visitKwargs, sizeKw]; omega
    | cons kw rest =>
        have hsz2 : sizeE kw.2 + sizeKw rest ≤ N := by
          simpa only [sizeKw] using hsz
        have h1 := hE st kw.2 (by omega)
        have hr : sizeKw rest < N := by have := sizeE_pos kw.2; omega
        have h2 := (ih _ hr).2.2.1 (visitExpr st kw.2) rest (le_refl _)
        simp only [visitKwargs, sizeKw]
        omega
  have hKeys : ∀ (st : VState) (l : List (PyExpr × PyExpr)),
      sizeEntries l ≤ N →
      (visitDictKeys st l).includes.length
        ≤ st.includes.length + sizeEntries l := by
    intro st l hsz
    cases l with
    | nil => simp only [visitDictKeys, sizeEntries]; omega
    | cons kv rest =>
        have hsz2 : sizeE kv.1 + sizeE kv.2 + sizeEntries rest ≤ N := by
          simpa only [sizeEntries] using hsz
        have h1 := hE st kv.1 (by omega)
        have hr : sizeEntries rest < N := by have := sizeE_pos kv.1; omega
        have h2 := (ih _ hr).2.2.2.1 (visitExpr st kv.1) rest (le_refl _)
        simp only [visitDictKeys, sizeEntries]
        omega
  have hVals : ∀ (st : VState) (l : List (PyExpr × PyExpr)),
      sizeEntries l ≤ N →
      (visitDictVals st l).includes.length
        ≤ st.includes.length + sizeEntries l := by
    intro st l hsz
    cases l with
    | nil => simp only [visitDictVals, sizeEntries]; omega
    | cons kv rest =>
        have hsz2 : sizeE kv.1 + sizeE kv.2 + sizeEntries rest ≤ N := by
          simpa only [sizeEntries] using hsz
        have h1 := hE st kv.2 (by omega)
        have hr : sizeEntries rest < N := by have := sizeE_pos kv.2; omega
        have h2 := (ih _ hr).2.2.2.2.1 (visitExpr st kv.2) rest (le_refl _)
        simp only [visitDictVals, sizeEntries]
        omega
  have hS : ∀ (st : VState) (s : PyStmt), sizeS s ≤ N →
      (visitStmt st s).includes.length ≤ st.includes.length + sizeS s := by
    intro st s hsz
    cases s with
    | assign targets value =>
        have hsz2 : 1 + 2 * sizeEs targets + 2 * sizeE value ≤ N := by
          simpa only [sizeS] using hsz
        have h1 := congrArg List.length
          (routerAssignBranch_includes st targets value)
        have h2 := urlpatternsBranch_includes
          (routerAssignBranch st targets value) targets value
        have h3 := hEs (urlpatternsBranch (routerAssignBranch st targets
          value) targets value) targets (by omega)
        have h4 := hE (visitExprs (urlpatternsBranch (routerAssignBranch st
          targets value) targets value) targets) value (by omega)
        simp only [visitStmt, sizeS]
        omega
    | augAssign target value =>
        have hsz2 : 1 + 2 * sizeE target + 2 * sizeE value ≤ N := by
          simpa only [sizeS] using hsz
        have h1 := augBranch_includes st target value
        have h2 := hE (augBranch st target value) target (by omega)
        have h3 := hE (visitExpr (augBranch st target value) target)
          value (by omega)
        simp only [visitStmt, sizeS]
        omega
    | exprStmt e =>
        have hsz2 : 1 + 2 * sizeE e ≤ N := by simpa only [sizeS] using hsz
        have h1 := hE st e (by omega)
        simp only [visitStmt, sizeS]
        omega
    | functionDef nm decorators body =>
        have hsz2 : 1 + 2 * sizeEs decorators + 2 * sizeSs body ≤ N := by
          simpa only [sizeS] using hsz
        have hb : sizeSs body < N := by omega
        have h1 := (ih _ hb).2.2.2.2.2.2 st body (le_refl _)
        have h2 := hEs (visitStmts st body) decorators (by omega)
        simp only [visitStmt, sizeS]
        omega
    | classDef nm bases body =>
        have hsz2 : 1 + 2 * sizeEs bases + 2 * sizeSs body ≤ N := by
          simpa only [sizeS] using hsz
        have hb : sizeSs body < N := by omega
        have h1 := hEs st bases (by omega)
        have h2 := (ih _ hb).2.2.2.2.2.2 (visitExprs st bases) body
          (le_refl _)
        simp only [visitStmt, sizeS]
        omega
    | passStmt => simp only [visitStmt, sizeS]; omega
  have hSs : ∀ (st : VState) (l : List PyStmt), sizeSs l ≤ N →
      (visitStmts st l).includes.length ≤ st.includes.length + sizeSs l := by
    intro st l hsz
    cases l with
    | nil => simp only [visitStmts, sizeSs]; omega
    | cons s rest =>
        have hsz2 : sizeS s + sizeSs rest ≤ N := by
          simpa only [sizeSs] using hsz
        have h1 := hS st s (by omega)
        have hr : sizeSs rest < N := by have := sizeS_pos s; omega
        have h2 := (ih _ hr).2.2.2.2.2.2 (visitStmt st s) rest (le_refl _)
        simp only [visitStmts, sizeSs]
        omega
  exact ⟨hE, hEs, hKw, hKeys, hVals, hS, hSs⟩

/-- Upper bound on the number of include references one parsed file
can emit: the size of its (decorator-transformed) statement list. -/
def fileWeight (fl : PyFile) : Nat :=
  match fl.parseResult with
  | some stmts => sizeSs (decorBody [] stmts).2
  | none => 0

/-- One more than the total include capacity of the project: no file
of `fs` can push more than `walkCap fs - 1` queue entries. -/
def walkCap (fs : FS) : Nat :=
  1 + (fs.files.map (fun e => fileWeight e.2)).sum

theorem runVisitors_includes (stmts : List PyStmt) (p : String) :
    (runVisitors stmts p).includes.length
      ≤ sizeSs (decorBody [] stmts).2 := by
  have h0 : (((decorBody [] stmts).1).foldl
      (fun st e => _store_api_view_methods st e.1 e.2)
      (⟨p, [], [], [], [], [], []⟩ : VState)).includes = [] :=
    foldl_includes_eq
      (fun (st : VState) (e : String × List String) =>
        _store_api_view_methods st e.1 e.2)
      (fun s e => rfl) _ _
  have h1 := (visitBound_all (sizeSs (decorBody [] stmts).2)).2.2.2.2.2.2
    (((decorBody [] stmts).1).foldl
      (fun st e => _store_api_view_methods st e.1 e.2)
      (⟨p, [], [], [], [], [], []⟩ : VState)) (decorBody [] stmts).2
    (le_refl _)
  rw [h0] at h1
  simpa only [runVisitors, List.length_nil, Nat.zero_add] using h1

theorem fileWeight_le_sum (l : List (String × PyFile)) (k : String)
    (fl : PyFile) (h : List.lookup k l = some fl) :
    fileWeight fl ≤ (l.map (fun e => fileWeight e.2)).sum := by
  induction l with
  | nil => simp [List.lookup] at h
  | cons a t ih =>
      cases a with
      | mk k2 v2 =>
          simp only [List.lookup] at h
          cases hk : (k == k2) with
          | true =>
              rw [hk] at h
              obtain rfl : v2 = fl := by injection h
              simp only [List.map_cons, List.sum_cons]
              omega
          | false =>
              rw [hk] at h
              have := ih h
              simp only [List.map_cons, List.sum_cons]
              omega

theorem lookup_mem_keys (l : List (String × PyFile)) (k : String)
    (fl : PyFile) (h : List.lookup k l = some fl) :
    k ∈ l.map Prod.fst := by
  induction l with
  | nil => simp [List.lookup] at h
  | cons a t ih =>
      cases a with
      | mk k2 v2 =>
          simp only [List.lookup] at h
          cases hk : (k == k2) with
          | true =>
              exact List.mem_cons.mpr (Or.inl (eq_of_beq hk))
          | false =>
              rw [hk] at h
              exact List.mem_cons_of_mem _ (ih h)

/-- Number of project files the walk has not yet visited. -/
def unvisited (fs : FS) (seen : List String) : Nat :=
  ((fs.files.map Prod.fst).filter (fun f => decide (f ∉ seen))).length

theorem filter_length_mono {α : Type} (p q : α → Bool)
    (h : ∀ a, p a = true → q a = true) (l : List α) :
    (l.filter p).length ≤ (l.filter q).length := by
  induction l with
  | nil => simp
  | cons a t ih =>
      cases hp : p a with
      | true =>
          have hq := h a hp
          simp only [List.filter_cons, hp, hq, if_true, List.length_cons]
          omega
      | false =>
          cases hq : q a with
          | true =>
              simp only [List.filter_cons, hp, hq, if_true,
                Bool.false_eq_true, if_false, List.length_cons]
              omega
          | false =>
              simp only [List.filter_cons, hp, hq, Bool.false_eq_true,
                if_false]
              omega

theorem unvisited_mono (fs : FS) (seen seen2 : List String)
    (h : ∀ x, x ∈ seen → x ∈ seen2) :
    unvisited fs seen2 ≤ unvisited fs seen := by
  apply filter_length_mono
  intro a ha
  simp only [decide_eq_true_eq] at ha ⊢
  exact fun hmem => ha (h a hmem)

theorem filter_drop_one (l : List String) (seen : List String) (f : String)
    (hf : f ∈ l) (hns : f ∉ seen) :
    (l.filter (fun x => decide (x ∉ seen ++ [f]))).length + 1
      ≤ (l.filter (fun x => decide (x ∉ seen))).length := by
  induction l with
  | nil => simp at hf
  | cons a t ih =>
      by_cases haf : a = f
      · subst haf
        have h1 : (decide (a ∉ seen ++ [a])) = false := by simp
        have h2 : (decide (a ∉ seen)) = true := by simpa using hns
        simp only [List.filter_cons, h1, h2, if_true, Bool.false_eq_true,
          if_false, List.length_cons]
        have := filter_length_mono (fun x => decide (x ∉ seen ++ [a]))
          (fun x => decide (x ∉ seen)) (fun x hx => by
            simp only [decide_eq_true_eq, List.mem_append,
              List.mem_singleton] at hx ⊢
            exact fun hmem => hx (Or.inl hmem)) t
        omega
      · have hft : f ∈ t := by
          rcases List.mem_cons.mp hf with rfl | h
          · exact absurd rfl haf
          · exact h
        have heq : (decide (a ∉ seen ++ [f]) : Bool) = decide (a ∉ seen) :=
          decide_eq_decide.mpr (by simp [haf])
        rw [List.filter_cons, List.filter_cons, heq]
        have := ih hft
        cases hd : (decide (a ∉ seen)) with
        | true => simp only [hd, if_true, List.length_cons]; omega
        | false => simp only [hd, Bool.false_eq_true, if_false]; omega

theorem unvisited_add (fs : FS) (seen : List String) (f : String)
    (hmemf : f ∈ fs.files.map Prod.fst) (hns : f ∉ seen) :
    unvisited fs (seen ++ [f]) + 1 ≤ unvisited fs seen :=
  filter_drop_one _ seen f hmemf hns

theorem walkF_seen_sub (fs : FS) : ∀ (n : Nat) (q : List QEntry)
    (seen : List String) (x : String),
    x ∈ seen → x ∈ (walkF fs n q seen).2.1 := by
  intro n
  induction n with
  | zero => intro q seen x hx; simpa [walkF] using hx
  | succ n ih =>
      intro q seen x hx
      cases q with
      | nil => simpa [walkF] using hx
      | cons q0 rest =>
          cases hq : qResolve fs q0 with
          | inl mod =>
              simp only [walkF, hq]
              exact ih rest seen x hx
          | inr fp =>
              obtain ⟨f, p⟩ := fp
              simp only [walkF, hq]
              by_cases hf : f ∈ seen
              · rw [if_pos hf]; exact ih rest seen x hx
              · rw [if_neg hf]
                cases hlook : List.lookup f fs.files with
                | none => simp only [hlook]; exact ih rest seen x hx
                | some fl =>
                    simp only [hlook]
                    cases hpr : fl.parseResult with
                    | none =>
                        simp only [hpr]
                        exact ih rest (seen ++ [f]) x (by simp [hx])
                    | some stmts =>
                        simp only [hpr]
                        exact ih rest _ x (ih _ (seen ++ [f]) x (by simp [hx]))

/-- Sufficient fuel for the walk: each step either consumes a queue
entry or visits a new file, and a visit can enqueue at most
`walkCap fs - 1` new entries. -/
def mWalk (fs : FS) (q : List QEntry) (seen : List String) : Nat :=
  unvisited fs seen * walkCap fs + q.length + 1

theorem walkF_stable (fs : FS) : ∀ (M : Nat) (q : List QEntry)
    (seen : List String) (n1 n2 : Nat), mWalk fs q seen ≤ M →
    mWalk fs q seen ≤ n1 → mWalk fs q seen ≤ n2 →
    walkF fs n1 q seen = walkF fs n2 q seen := by
  intro M
  induction M using Nat.strong_induction_on with
  | _ M ih =>
  intro q seen n1 n2 hM h1 h2
  have hm1 : 1 ≤ mWalk fs q seen := by simp only [mWalk]; omega
  obtain ⟨n1', rfl⟩ : ∃ k, n1 = k + 1 := ⟨n1 - 1, by omega⟩
  obtain ⟨n2', rfl⟩ : ∃ k, n2 = k + 1 := ⟨n2 - 1, by omega⟩
  cases q with
  | nil => simp [walkF]
  | cons q0 rest =>
      have hq1 := h1
      have hq2 := h2
      have hqM := hM
      simp only [mWalk, List.length_cons] at hq1 hq2 hqM
      have hrest : mWalk fs rest seen < M ∧ mWalk fs rest seen ≤ n1'
          ∧ mWalk fs rest seen ≤ n2' := by
        simp only [mWalk]
        omega
      cases hq : qResolve fs q0 with
      | inl mod =>
          simp only [walkF, hq]
          rw [ih (mWalk fs rest seen) hrest.1 rest seen n1' n2'
            (le_refl _) hrest.2.1 hrest.2.2]
      | inr fp =>
          obtain ⟨f, p⟩ := fp
          simp only [walkF, hq]
          by_cases hf : f ∈ seen
          · rw [if_pos hf, if_pos hf]
            exact ih (mWalk fs rest seen) hrest.1 rest seen n1' n2'
              (le_refl _) hrest.2.1 hrest.2.2
          · rw [if_neg hf, if_neg hf]
            cases hlook : List.lookup f fs.files with
            | none =>
                simp only [hlook]
                exact ih (mWalk fs rest seen) hrest.1 rest seen n1' n2'
                  (le_refl _) hrest.2.1 hrest.2.2
            | some fl =>
                simp only [hlook]
                have hkey : f ∈ fs.files.map Prod.fst :=
                  lookup_mem_keys _ _ _ hlook
                have hU : unvisited fs (seen ++ [f]) + 1
                    ≤ unvisited fs seen := unvisited_add fs seen f hkey hf
                have hmulU : (unvisited fs (seen ++ [f]) + 1) * walkCap fs
                    ≤ unvisited fs seen * walkCap fs :=
                  Nat.mul_le_mul_right _ hU
                have hsm : (unvisited fs (seen ++ [f]) + 1) * walkCap fs
                    = unvisited fs (seen ++ [f]) * walkCap fs + walkCap fs :=
                  Nat.succ_mul _ _
                have hCpos : 1 ≤ walkCap fs := by simp only [walkCap]; omega
                cases hpr : fl.parseResult with
                | none =>
                    simp only [hpr]
                    have hr : mWalk fs rest (seen ++ [f]) < M ∧
                        mWalk fs rest (seen ++ [f]) ≤ n1' ∧
                        mWalk fs rest (seen ++ [f]) ≤ n2' := by
                      simp only [mWalk]
                      omega
                    rw [ih (mWalk fs rest (seen ++ [f])) hr.1 rest
                      (seen ++ [f]) n1' n2' (le_refl _) hr.2.1 hr.2.2]
                | some stmts =>
                    simp only [hpr]
                    have hw : sizeSs (decorBody [] stmts).2
                        = fileWeight fl := by
                      simp [fileWeight, hpr]
                    have hinc : (runVisitors stmts p).includes.length + 1
                        ≤ walkCap fs := by
                      have ha := runVisitors_includes stmts p
                      have hb := fileWeight_le_sum fs.files f fl hlook
                      simp only [walkCap]
                      omega
                    have hlen : ((runVisitors stmts p).includes.map
                        (fun inc => QEntry.modE inc.1 inc.2)).length
                        = (runVisitors stmts p).includes.length :=
                      List.length_map _ _
                    have hmv : mWalk fs ((runVisitors stmts p).includes.map
                        (fun inc => QEntry.modE inc.1 inc.2)) (seen ++ [f])
                        ≤ unvisited fs seen * walkCap fs := by
                      simp only [mWalk, hlen]
                      omega
                    have hr1 : mWalk fs ((runVisitors stmts p).includes.map
                        (fun inc => QEntry.modE inc.1 inc.2)) (seen ++ [f])
                        < M := by omega
                    rw [ih _ hr1 _ (seen ++ [f]) n1' n2' (le_refl _)
                      (by omega) (by omega)]
                    have hsub : ∀ x, x ∈ seen ++ [f] →
                        x ∈ (walkF fs n2'
                          ((runVisitors stmts p).includes.map
                            (fun inc => QEntry.modE inc.1 inc.2))
                          (seen ++ [f])).2.1 :=
                      fun x hx => walkF_seen_sub fs n2' _ (seen ++ [f]) x hx
                    have hU2 : unvisited fs (walkF fs n2'
                        ((runVisitors stmts p).includes.map
                          (fun inc => QEntry.modE inc.1 inc.2))
                        (seen ++ [f])).2.1 ≤ unvisited fs (seen ++ [f]) :=
                      unvisited_mono fs _ _ hsub
                    have hmul2 : (unvisited fs (walkF fs n2'
                        ((runVisitors stmts p).includes.map
                          (fun inc => QEntry.modE inc.1 inc.2))
                        (seen ++ [f])).2.1 + 1) * walkCap fs
                        ≤ unvisited fs seen * walkCap fs :=
                      Nat.mul_le_mul_right _ (by omega)
                    have hsm2 : (unvisited fs (walkF fs n2'
                        ((runVisitors stmts p).includes.map
                          (fun inc => QEntry.modE inc.1 inc.2))
                        (seen ++ [f])).2.1 + 1) * walkCap fs
                        = unvisited fs (walkF fs n2'
                          ((runVisitors stmts p).includes.map
                            (fun inc => QEntry.modE inc.1 inc.2))
                          (seen ++ [f])).2.1 * walkCap fs + walkCap fs :=
                      Nat.succ_mul _ _
                    have hr2 : mWalk fs rest (walkF fs n2'
                        ((runVisitors stmts p).includes.map
                          (fun inc => QEntry.modE inc.1 inc.2))
                        (seen ++ [f])).2.1 < M ∧
                        mWalk fs rest (walkF fs n2'
                          ((runVisitors stmts p).includes.map
                            (fun inc => QEntry.modE inc.1 inc.2))
                          (seen ++ [f])).2.1 ≤ n1' ∧
                        mWalk fs rest (walkF fs n2'
                          ((runVisitors stmts p).includes.map
                            (fun inc => QEntry.modE inc.1 inc.2))
                          (seen ++ [f])).2.1 ≤ n2' := by
                      simp only [mWalk]
                      omega
                    rw [ih _ hr2.1 rest _ n1' n2' (le_refl _)
                      hr2.2.1 hr2.2.2]

/-! ### C6: cyclic include graphs -/

/-- File A of the cyclic scenario: one route of its own plus an
include of package B under the prefix `sub/`. -/
def aUrlsPy : List PyStmt :=
  [PyStmt.assign [PyExpr.name "urlpatterns"]
     (PyExpr.listE
       [PyExpr.call (PyExpr.name "path")
         [PyExpr.constStr "a/", PyExpr.name "ping_a"] [] none,
        PyExpr.call (PyExpr.name "path")
         [PyExpr.constStr "sub/",
          PyExpr.call (PyExpr.name "include")
            [PyExpr.constStr "bpkg.urls"] [] none] [] none])]

/-- File B of the cyclic scenario: one route of its own plus an
include pointing back at package A. -/
def bUrlsPy : List PyStmt :=
  [PyStmt.assign [PyExpr.name "urlpatterns"]
     (PyExpr.listE
       [PyExpr.call (PyExpr.name "path")
         [PyExpr.constStr "b/", PyExpr.name "ping_b"] [] none,
        PyExpr.call (PyExpr.name "path")
         [PyExpr.constStr "",
          PyExpr.call (PyExpr.name "include")
            [PyExpr.constStr "apkg.urls"] [] none] [] none])]

/-- The cyclic project: A includes B, B includes A. -/
def fsC6 : FS :=
  ⟨[("A.py", ⟨some aUrlsPy⟩), ("B.py", ⟨some bUrlsPy⟩)],
   fun m =>
     if m = "bpkg.urls" then some "B.py"
     else if m = "apkg.urls" then some "A.py" else none⟩

/-- C6: the recursive walk terminates on every include graph,
including cyclic ones.  First conjunct: on any project, once the fuel
reaches the computable bound `mWalk` the result of the embedded
recursion never changes again (the recursion has terminated).  Second
conjunct: a file already in the visited set contributes nothing — its
queue entry is skipped outright.  Third and fourth conjuncts: on the
cyclic project A ⇄ B, for every sufficient fuel the walk returns the
finite route list obtained by processing A once and B once (B's
back-include of the already-visited A adds no routes, no diagnostics,
and no repeat visit: each file appears exactly once in the visited
list). -/
theorem walk_cycle_C6 :
    (∀ (fs : FS) (q : List QEntry) (seen : List String) (n1 n2 : Nat),
      mWalk fs q seen ≤ n1 → mWalk fs q seen ≤ n2 →
      walkF fs n1 q seen = walkF fs n2 q seen) ∧
    (∀ (fs : FS) (n : Nat) (f p : String) (rest : List QEntry)
      (seen : List String), f ∈ seen →
      walkF fs (n + 1) (QEntry.fileE f p :: rest) seen
        = walkF fs n rest seen) ∧
    (∀ n, mWalk fsC6 [QEntry.fileE "A.py" ""] [] ≤ n →
      walkF fsC6 n [QEntry.fileE "A.py" ""] []
        = ((runVisitors aUrlsPy "").routes
            ++ (runVisitors bUrlsPy "sub/").routes,
           ["A.py", "B.py"], [])) ∧
    ((runVisitors aUrlsPy "").routes ++ (runVisitors bUrlsPy "sub/").routes
      = [{ path := "/a/", method := "get", operation_id := "ping_a",
           description := "[\x27get\x27] a/", parameters := [] },
         { path := "/sub/b/", method := "get", operation_id := "ping_b",
           description := "[\x27get\x27] b/", parameters := [] }]) := by
  refine ⟨?_, ?_, ?_, ?_⟩
  · intro fs q seen n1 n2 hn1 hn2
    exact walkF_stable fs (mWalk fs q seen) q seen n1 n2 (le_refl _) hn1 hn2
  · intro fs n f p rest seen hf
    simp only [walkF, qResolve]
    rw [if_pos hf]
  · intro n hn
    rw [walkF_stable fsC6 (mWalk fsC6 [QEntry.fileE "A.py" ""] [])
      [QEntry.fileE "A.py" ""] [] n (mWalk fsC6 [QEntry.fileE "A.py" ""] [])
      (le_refl _) hn (le_refl _)]
    decide
  · decide

/-- C6 witness: the theorem's three conditional parts applied at
concrete inputs — stabilization of the cyclic walk between its fuel
bound and any larger fuel, the skip of an already-visited file, and
the cyclic walk's concrete value. -/
theorem walk_cycle_C6_witness :
    (walkF fsC6 (mWalk fsC6 [QEntry.fileE "A.py" ""] [])
        [QEntry.fileE "A.py" ""] []
      = walkF fsC6 (mWalk fsC6 [QEntry.fileE "A.py" ""] [] + 1)
        [QEntry.fileE "A.py" ""] []) ∧
    (walkF fsC6 1 [QEntry.fileE "A.py" "x/", QEntry.fileE "B.py" ""]
        ["A.py"]
      = walkF fsC6 0 [QEntry.fileE "B.py" ""] ["A.py"]) ∧
    (walkF fsC6 (mWalk fsC6 [QEntry.fileE "A.py" ""] [])
        [QEntry.fileE "A.py" ""] []
      = ((runVisitors aUrlsPy "").routes
          ++ (runVisitors bUrlsPy "sub/").routes,
         ["A.py", "B.py"], [])) :=
  ⟨walk_cycle_C6.1 fsC6 [QEntry.fileE "A.py" ""] []
      (mWalk fsC6 [QEntry.fileE "A.py" ""] [])
      (mWalk fsC6 [QEntry.fileE "A.py" ""] [] + 1)
      (le_refl _) (Nat.le_succ _),
   walk_cycle_C6.2.1 fsC6 0 "A.py" "x/" [QEntry.fileE "B.py" ""]
      ["A.py"] (by decide),
   walk_cycle_C6.2.2.1 (mWalk fsC6 [QEntry.fileE "A.py" ""] [])
      (le_refl _)⟩

/-! ### C8: operationId generation (django_creator.py lines 1866-1955)

`generate_operation_id` is embedded with the `hashlib.md5(...).hexdigest()`
call abstracted as a function parameter `md5hex`; the code uses only its
first 8 characters.  Character classes follow the ASCII reading of the
source regexes. -/

/-- ASCII `\w`. -/
def isWordChar (c : Char) : Bool :=
  (decide ('a' ≤ c) && decide (c ≤ 'z')) ||
  (decide ('A' ≤ c) && decide (c ≤ 'Z')) ||
  (decide ('0' ≤ c) && decide (c ≤ '9')) || decide (c = '_')

/-- `re.search(r'(\w+)(?:\.as_view\(\)|$|\W)', s)`: the group is the
first maximal run of word characters (after a maximal run the next
character is absent or a non-word character, so one of the three
alternatives always closes the match). -/
def firstWordRun : List Char → Option (List Char)
  | [] => none
  | c :: rest =>
    if isWordChar c then some ((c :: rest).takeWhile isWordChar)
    else firstWordRun rest

def isLowerDigit (c : Char) : Bool :=
  (decide ('a' ≤ c) && decide (c ≤ 'z')) ||
  (decide ('0' ≤ c) && decide (c ≤ '9'))

def isUpperChar (c : Char) : Bool :=
  decide ('A' ≤ c) && decide (c ≤ 'Z')

/-- `re.sub(r'([a-z0-9])([A-Z])', r'\1_\2', s)`: left-to-right
non-overlapping replacement, both matched characters consumed. -/
def camelSnake : List Char → List Char
  | [] => []
  | [c] => [c]
  | c1 :: c2 :: rest =>
    if isLowerDigit c1 && isUpperChar c2 then
      c1 :: '_' :: c2 :: camelSnake rest
    else c1 :: camelSnake (c2 :: rest)

/-- Snake-casing plus `.lower()`. -/
def toSnake (s : String) : String := pyLower ⟨camelSnake s.data⟩

/-- `re.sub(r'\{[^}]+\}', '', path)` with fuel equal to the input
length (each step consumes at least one character). -/
def stripBracesF : Nat → List Char → List Char
  | 0, l => l
  | _ + 1, [] => []
  | n + 1, c :: rest =>
    if c = '\x7b' then
      let inner := rest.takeWhile (fun d => decide (d ≠ '\x7d'))
      match rest.drop inner.length with
      | d :: rest2 =>
        if inner ≠ [] ∧ d = '\x7d' then stripBracesF n rest2
        else c :: stripBracesF n rest
      | [] => c :: stripBracesF n rest
    else c :: stripBracesF n rest

def stripBraces (s : String) : String := ⟨stripBracesF s.data.length s.data⟩

/-- Python `str.strip(c)`. -/
def pyStrip (s : String) (c : Char) : String :=
  ⟨(((s.data.dropWhile (fun d => decide (d = c))).reverse.dropWhile
      (fun d => decide (d = c))).reverse)⟩

/-- `re.sub(r'_+', '_', s)` (the flag tracks whether the previous kept
character was an underscore of a collapsed run). -/
def collapseU : Bool → List Char → List Char
  | _, [] => []
  | prev, c :: rest =>
    if c = '_' then
      if prev then collapseU true rest else '_' :: collapseU true rest
    else c :: collapseU false rest

/-- Python `'_'.join`. -/
def joinUnderscore : List String → String
  | [] => ""
  | [s] => s
  | s :: rest => s ++ "_" ++ joinUnderscore rest

/-- The view-name component: regex extraction, suffix strip (first
matching suffix wins, in source order), snake-casing. -/
def opIdViewClass (view_name : String) : String :=
  let vc :=
    match firstWordRun view_name.data with
    | some run => (⟨run⟩ : String)
    | none => view_name
  let vc :=
    if endsWithS vc "ViewSet" then dropRightS vc 7
    else if endsWithS vc "View" then dropRightS vc 4
    else if endsWithS vc "APIView" then dropRightS vc 7
    else vc
  toSnake vc

def isSnakeChar (c : Char) : Bool :=
  (decide ('a' ≤ c) && decide (c ≤ 'z')) ||
  (decide ('0' ≤ c) && decide (c ≤ '9')) || decide (c = '_')

/-- Python `str.split` with a one-character separator, as a
kernel-reducible character splitter. -/
def splitChar (c : Char) : List Char → List (List Char)
  | [] => [[]]
  | d :: rest =>
    match splitChar c rest with
    | [] => [[]]
    | part :: parts =>
      if d = c then [] :: part :: parts else (d :: part) :: parts

/-- The cleaned path segments (`clean_parts` of the source). -/
def opIdCleanParts (path : String) : List String :=
  let clean_path := pyStrip (stripBraces path) '/'
  ((splitChar '/' clean_path.data).map
      (fun l => (⟨l⟩ : String))).filterMap fun part =>
    if part = "" then none
    else
      let part := toSnake part
      let part : String := ⟨part.data.map fun c =>
        if isSnakeChar c then c else '_'⟩
      let part : String := ⟨collapseU false part.data⟩
      let part := pyStrip part '_'
      if part ≠ "" then some part else none

def opIdPathStr (path : String) : String :=
  joinUnderscore (opIdCleanParts path)

/-- `parts` of the source: method, view class and path string, each
included only when non-empty. -/
def opIdParts (method path view_name : String) : List String :=
  (if method ≠ "" then [pyLower method] else []) ++
  (if opIdViewClass view_name ≠ "" then [opIdViewClass view_name] else []) ++
  (if opIdPathStr path ≠ "" then [opIdPathStr path] else [])

/-- `operation_id` before the length cap: the joined parts, prefixed
with `op_` when they start with a digit. -/
def opIdBase (method path view_name : String) : String :=
  let operation_id := joinUnderscore
    ((opIdParts method path view_name).filter (fun p => p ≠ ""))
  match operation_id.data with
  | c :: _ =>
    if decide ('0' ≤ c) && decide (c ≤ '9') then "op_" ++ operation_id
    else operation_id
  | [] => operation_id

/-- The hash-shortened form used when the plain id is over 64
characters: the non-path parts, the first path segment and the first
8 characters of the md5 hash of the path string. -/
def opIdShort (md5hex : String → String)
    (method path view_name : String) : String :=
  let path_str := opIdPathStr path
  let path_hash : String := ⟨(md5hex path_str).data.take 8⟩
  let first_segment :=
    match opIdCleanParts path with
    | p :: _ => p
    | [] => ""
  let parts_without_path :=
    (opIdParts method path view_name).filter (fun p => p ≠ path_str)
  joinUnderscore
    ((parts_without_path ++ [first_segment, path_hash]).filter
      (fun p => p ≠ ""))

/-- `generate_operation_id` (django_creator.py lines 1866-1955). -/
def generate_operation_id (md5hex : String → String)
    (method path view_name : String) : String :=
  let operation_id := opIdBase method path view_name
  if 64 < operation_id.data.length then
    let short_id := opIdShort md5hex method path view_name
    if short_id.data.length ≤ 64 then short_id
    else ⟨operation_id.data.take 64⟩
  else operation_id

/-- The C8 failing input: two URL patterns wired to the same view
callable `v`. -/
def urls8Py : List PyStmt :=
  [PyStmt.assign [PyExpr.name "urlpatterns"]
     (PyExpr.listE
       [PyExpr.call (PyExpr.name "path")
         [PyExpr.constStr "a/", PyExpr.name "v"] [] none,
        PyExpr.call (PyExpr.name "path")
         [PyExpr.constStr "b/", PyExpr.name "v"] [] none])]

def fsC8 : FS := ⟨[("urls.py", ⟨some urls8Py⟩)], fun _ => none⟩

def ra8 : Route := ⟨"/a/", "get", "v", "[\x27get\x27] a/", []⟩

def rb8 : Route := ⟨"/b/", "get", "v", "[\x27get\x27] b/", []⟩

/-- C8 counterexample: the walker derives the operationId from the
view name alone (`_add_route`): two different paths bound to the same
view produce two operations in the generated document with the same
operationId `v`, so no generated document is guaranteed collision-free. -/
theorem operation_id_collision_C8 :
    ((getOp (_build_spec
        (walkF fsC8 2 [QEntry.fileE "urls.py" ""] []).1).1.paths
        "/a/" "get").map Operation.operationId = some "v") ∧
    ((getOp (_build_spec
        (walkF fsC8 2 [QEntry.fileE "urls.py" ""] []).1).1.paths
        "/b/" "get").map Operation.operationId = some "v") ∧
    ("/a/" : String) ≠ "/b/" := by
  have hroutes : (walkF fsC8 2 [QEntry.fileE "urls.py" ""] []).1
      = [ra8, rb8] := by decide
  rw [hroutes]
  by_cases h : keyLe ra8 rb8
  · have hs : sortRoutes [ra8, rb8] = [ra8, rb8] := by
      simp [sortRoutes, sInsert, h]
    simp only [_build_spec]
    rw [hs]
    decide
  · have hs : sortRoutes [ra8, rb8] = [rb8, ra8] := by
      simp [sortRoutes, sInsert, h]
    simp only [_build_spec]
    rw [hs]
    decide

/-- C8 (amended): the collision-resolution mechanism of
`generate_operation_id` is as the spec says — every produced
identifier fits the 64-character bound; an id already within the
bound is returned untouched; an over-long id is replaced by the
hash-shortened form (non-path parts, first path segment, first 8
characters of the md5 hash of the path string) when that fits, and
by the raw 64-character truncation otherwise.  Uniqueness of
operationIds across a document does not hold (see the
counterexample). -/
theorem operation_id_cap_C8 (md5hex : String → String)
    (m p v : String) :
    (generate_operation_id md5hex m p v).data.length ≤ 64 ∧
    ((opIdBase m p v).data.length ≤ 64 →
      generate_operation_id md5hex m p v = opIdBase m p v) ∧
    (64 < (opIdBase m p v).data.length →
      ((opIdShort md5hex m p v).data.length ≤ 64 →
        generate_operation_id md5hex m p v = opIdShort md5hex m p v) ∧
      (64 < (opIdShort md5hex m p v).data.length →
        generate_operation_id md5hex m p v
          = ⟨(opIdBase m p v).data.take 64⟩)) := by
  refine ⟨?_, ?_, ?_⟩
  · simp only [generate_operation_id]
    by_cases hb : 64 < (opIdBase m p v).data.length
    · rw [if_pos hb]
      by_cases hs : (opIdShort md5hex m p v).data.length ≤ 64
      · rw [if_pos hs]; exact hs
      · rw [if_neg hs]
        simp only [List.length_take]
        omega
    · rw [if_neg hb]
      omega
  · intro hb
    simp only [generate_operation_id]
    rw [if_neg (by omega)]
  · intro hb
    constructor
    · intro hs
      simp only [generate_operation_id]
      rw [if_pos hb, if_pos hs]
    · intro hs
      simp only [generate_operation_id]
      rw [if_pos hb, if_neg (by omega)]

/-- A stand-in md5 hex digest for the C8 witness (the hash function is
a parameter of the embedding). -/
def cMd5 : String → String := fun _ => "0123456789abcdef0123456789abcdef"

def longPathC8 : String :=
  "/abcdefg/abcdefg/abcdefg/abcdefg/abcdefg/abcdefg/abcdefg/abcdefg/abcdefg/abcdefg/"

/-- C8 witness: the cap theorem applied at a concrete over-long input
whose hash-shortened form fits. -/
theorem operation_id_cap_C8_witness :
    64 < (opIdBase "get" longPathC8 "").data.length ∧
    (opIdShort cMd5 "get" longPathC8 "").data.length ≤ 64 ∧
    generate_operation_id cMd5 "get" longPathC8 ""
      = opIdShort cMd5 "get" longPathC8 "" :=
  ⟨by decide, by decide,
   ((operation_id_cap_C8 cMd5 "get" longPathC8 "").2.2 (by decide)).1
     (by decide)⟩

/-! ### C2: observable side effects of include resolution and of the
Flask loader

The filesystem and import system are abstracted as parameters
(`ex` for `Path.exists`, `fsSpec` for `importlib.util.find_spec`,
`sysPath` for `sys.path`); the functions return the value the source
computes together with the ordered trace of outward-visible effects
they perform. -/

inductive Effect where
  | existsCheck (p : String)
  | findSpec (mod : String)
  | sysPathInsert (dir : String)
  | sysPathRestore
  | execModule (p : String)
deriving DecidableEq, Repr

/-- `mod.replace('.', os.sep)` / `joinpath(*mod.split("."))`. -/
def dotToSlash (mod : String) : String :=
  ⟨mod.data.map fun c => if c = '.' then '/' else c⟩

def splitDot (mod : String) : List String :=
  (splitChar '.' mod.data).map fun l => (⟨l⟩ : String)

/-- Check candidates in order, returning the first hit and the trace
of existence checks performed. -/
def findFirst (ex : String → Bool) : List String →
    Option String × List Effect
  | [] => (none, [])
  | c :: rest =>
    if ex c then (some c, [Effect.existsCheck c])
    else
      let pr := findFirst ex rest
      (pr.1, Effect.existsCheck c :: pr.2)

/-- The five candidate locations of `_find_urls_in_app_dir`
(djang.py lines 420-426), in source order. -/
def appDirPatterns (app root : String) : List String :=
  [dotToSlash app ++ "/urls.py",
   ((splitDot app).headD "") ++ "/" ++ ((splitDot app).getLastD "")
     ++ "/urls.py",
   "apps/" ++ dotToSlash app ++ "/urls.py",
   root ++ "/" ++ dotToSlash app ++ "/urls.py",
   root ++ "/apps/" ++ dotToSlash app ++ "/urls.py"]

/-- `_find_urls_in_app_dir` (djang.py lines 412-438): the five
patterns, then a scan of `sys.path`. -/
def _find_urls_in_app_dir (ex : String → Bool) (sysPath : List String)
    (app root : String) : Option String × List Effect :=
  match findFirst ex (appDirPatterns app root) with
  | (some p, eff) => (some p, eff)
  | (none, eff1) =>
    let pr := findFirst ex
      (sysPath.map fun d => d ++ "/" ++ dotToSlash app ++ "/urls.py")
    (pr.1, eff1 ++ pr.2)

/-- `_file_from_module` (djang.py lines 441-461): direct candidate,
app-directory patterns, then the `importlib.util.find_spec` fallback
(the one step that is an import-system query rather than an existence
check). -/
def _file_from_module (ex : String → Bool) (sysPath : List String)
    (fsSpec : String → Option String) (mod root : String) :
    Option String × List Effect :=
  let candidate := root ++ "/" ++ dotToSlash mod ++ ".py"
  if ex candidate then (some candidate, [Effect.existsCheck candidate])
  else
    let pr := _find_urls_in_app_dir ex sysPath mod root
    match pr.1 with
    | some p => (some p, Effect.existsCheck candidate :: pr.2)
    | none =>
      let res :=
        match fsSpec mod with
        | some origin => if endsWithS origin ".py" then some origin else none
        | none => none
      (res, Effect.existsCheck candidate :: pr.2 ++ [Effect.findSpec mod])

/-- `os.path.split(p)[0]`. -/
def dirOf (p : String) : String :=
  ⟨((p.data.reverse.dropWhile fun c => decide (c ≠ '/')).reverse).dropLast⟩

/-- `load_flask_app` (openapi_spec_creator.py lines 18-55), as its
effect trace: insert the file's directory into `sys.path`, build the
module spec, execute the target module, restore `sys.path`. -/
def load_flask_app (file_path : String) : List Effect :=
  let abs_path := file_path
  let directory := dirOf abs_path
  (if directory ≠ "" then [Effect.sysPathInsert directory] else [])
    ++ [Effect.execModule abs_path, Effect.sysPathRestore]

theorem findFirst_effects (ex : String → Bool) :
    ∀ (cands : List String), ∀ e ∈ (findFirst ex cands).2,
      ∃ p, e = Effect.existsCheck p := by
  intro cands
  induction cands with
  | nil => intro e he; simp [findFirst] at he
  | cons c rest ih =>
      intro e he
      simp only [findFirst] at he
      by_cases hc : ex c
      · rw [if_pos hc] at he
        simp only [List.mem_singleton] at he
        exact ⟨c, he⟩
      · rw [if_neg hc] at he
        rcases List.mem_cons.mp he with rfl | h2
        · exact ⟨c, rfl⟩
        · exact ih e h2

theorem findFirst_none (ex : String → Bool) :
    ∀ (cands : List String), (findFirst ex cands).1 = none →
      ∀ c ∈ cands, ex c = false := by
  intro cands
  induction cands with
  | nil => intro h c hc; simp at hc
  | cons a rest ih =>
      intro h c hc
      simp only [findFirst] at h
      by_cases ha : ex a
      · rw [if_pos ha] at h
        simp at h
      · rw [if_neg ha] at h
        rcases List.mem_cons.mp hc with rfl | hc2
        · simpa using ha
        · exact ih h c hc2

theorem findUrls_effects (ex : String → Bool) (sysPath : List String)
    (app root : String) :
    ∀ e ∈ (_find_urls_in_app_dir ex sysPath app root).2,
      ∃ p, e = Effect.existsCheck p := by
  intro e he
  cases hfp : findFirst ex (appDirPatterns app root) with
  | mk o eff =>
    cases o with
    | some p =>
        simp only [_find_urls_in_app_dir, hfp] at he
        exact findFirst_effects ex _ e (by rw [hfp]; exact he)
    | none =>
        simp only [_find_urls_in_app_dir, hfp] at he
        rcases List.mem_append.mp he with h | h
        · exact findFirst_effects ex _ e (by rw [hfp]; exact h)
        · exact findFirst_effects ex _ e h

theorem findUrls_none (ex : String → Bool) (sysPath : List String)
    (app root : String)
    (h : (_find_urls_in_app_dir ex sysPath app root).1 = none) :
    (∀ c ∈ appDirPatterns app root, ex c = false) ∧
    (∀ d ∈ sysPath,
      ex (d ++ "/" ++ dotToSlash app ++ "/urls.py") = false) := by
  cases hfp : findFirst ex (appDirPatterns app root) with
  | mk o eff =>
    cases o with
    | some p =>
        simp only [_find_urls_in_app_dir, hfp] at h
        exact absurd h (Option.some_ne_none p)
    | none =>
        refine ⟨fun c hc => findFirst_none ex _ (by rw [hfp]) c hc,
          fun d hd => ?_⟩
        simp only [_find_urls_in_app_dir, hfp] at h
        exact findFirst_none ex _ h
          (d ++ "/" ++ dotToSlash app ++ "/urls.py")
          (List.mem_map_of_mem _ hd)

/-- C2 counterexample: loading a Flask application executes the
target module (`spec.loader.exec_module(module)`), so the pipeline
does run code of the analyzed application. -/
theorem load_flask_executes_C2 :
    Effect.execModule "/proj/app.py" ∈ load_flask_app "/proj/app.py" := by
  decide

/-- C2 (amended): Django include resolution performs only existence
checks on path-arithmetic candidates, except for the final
`importlib.util.find_spec` fallback, reached only when the direct
candidate, all five app-directory patterns and every `sys.path`
candidate fail their existence checks.  The Flask loader, by
contrast, always executes the target module, so the "never executes
or imports target code" guarantee does not extend to it. -/
theorem resolution_effects_C2 :
    (∀ (ex : String → Bool) (sysPath : List String)
       (fsSpec : String → Option String) (mod root : String),
      ∀ e ∈ (_file_from_module ex sysPath fsSpec mod root).2,
        (∃ p, e = Effect.existsCheck p) ∨ e = Effect.findSpec mod) ∧
    (∀ (ex : String → Bool) (sysPath : List String)
       (fsSpec : String → Option String) (mod root : String),
      Effect.findSpec mod ∈ (_file_from_module ex sysPath fsSpec mod root).2 →
        ex (root ++ "/" ++ dotToSlash mod ++ ".py") = false ∧
        (∀ c ∈ appDirPatterns mod root, ex c = false) ∧
        (∀ d ∈ sysPath,
          ex (d ++ "/" ++ dotToSlash mod ++ "/urls.py") = false)) ∧
    (∀ file_path : String,
      Effect.execModule file_path ∈ load_flask_app file_path) := by
  refine ⟨?_, ?_, ?_⟩
  · intro ex sysPath fsSpec mod root e he
    simp only [_file_from_module] at he
    by_cases hc : ex (root ++ "/" ++ dotToSlash mod ++ ".py")
    · rw [if_pos hc] at he
      simp only [List.mem_singleton] at he
      exact Or.inl ⟨_, he⟩
    · rw [if_neg hc] at he
      cases hu : (_find_urls_in_app_dir ex sysPath mod root).1 with
      | some p =>
          simp only [hu] at he
          rcases List.mem_cons.mp he with rfl | h2
          · exact Or.inl ⟨_, rfl⟩
          · exact Or.inl (findUrls_effects ex sysPath mod root e h2)
      | none =>
          simp only [hu] at he
          rcases List.mem_cons.mp he with rfl | h2
          · exact Or.inl ⟨_, rfl⟩
          · rcases List.mem_append.mp h2 with h3 | h3
            · exact Or.inl (findUrls_effects ex sysPath mod root e h3)
            · simp only [List.mem_singleton] at h3
              exact Or.inr h3
  · intro ex sysPath fsSpec mod root hmem
    by_cases hc : ex (root ++ "/" ++ dotToSlash mod ++ ".py")
    · exfalso
      simp only [_file_from_module] at hmem
      rw [if_pos hc] at hmem
      simp at hmem
    · refine ⟨by simpa using hc, ?_⟩
      cases hu : (_find_urls_in_app_dir ex sysPath mod root).1 with
      | some p =>
          exfalso
          simp only [_file_from_module] at hmem
          rw [if_neg hc] at hmem
          simp only [hu] at hmem
          rcases List.mem_cons.mp hmem with h | h2
          · exact absurd h (by simp)
          · obtain ⟨q, hq⟩ := findUrls_effects ex sysPath mod root _ h2
            exact absurd hq (by simp)
      | none => exact findUrls_none ex sysPath mod root hu
  · intro file_path
    simp [load_flask_app]

/-- C2 witness: the theorem applied at a resolver where every
existence check fails (the find_spec fallback is reached and the
all-candidates-failed conclusion is produced) and at a concrete Flask
entry file. -/
theorem resolution_effects_C2_witness :
    (((∃ p, Effect.findSpec "app.urls" = Effect.existsCheck p) ∨
       Effect.findSpec "app.urls" = Effect.findSpec "app.urls") ∧
     (((fun _ => false) : String → Bool)
         ("/r" ++ "/" ++ dotToSlash "app.urls" ++ ".py") = false ∧
       (∀ c ∈ appDirPatterns "app.urls" "/r",
         ((fun _ => false) : String → Bool) c = false) ∧
       (∀ d ∈ (["/sp"] : List String),
         ((fun _ => false) : String → Bool)
           (d ++ "/" ++ dotToSlash "app.urls" ++ "/urls.py") = false))) ∧
    Effect.execModule "/proj/app.py" ∈ load_flask_app "/proj/app.py" :=
  ⟨⟨resolution_effects_C2.1 (fun _ => false) ["/sp"] (fun _ => none)
      "app.urls" "/r" (Effect.findSpec "app.urls") (by decide),
    resolution_effects_C2.2.1 (fun _ => false) ["/sp"] (fun _ => none)
      "app.urls" "/r" (by decide)⟩,
   resolution_effects_C2.2.2 "/proj/app.py"⟩
